import Mathlib

/-!
Verification of the peg-solitaire bitboard engine against its
natural-language specification.

The development shallowly embeds the Python sources:
  core/bitboard.py   (board constants, move generation, dead-end test,
                      D4 canonicalisation)
  core/zobrist.py    (incremental Zobrist hashing)
  heuristics/pagoda.py
  heuristics/pattern_db.py
  solutions/verify.py
  peg_io/cache_enhanced.py, core/utils.py
  solvers/sequential.py, solvers/governor.py (decision cores)

Boards are 49-bit masks held in unbounded Python integers, so they are
modelled as plain naturals, cells are indexed by `pos = row*7 + col`, and
every bit manipulation is translated literally.  Python's `x & ~m` on an
always-nonnegative word is modelled by `andNot x m = x ^^^ (x &&& m)`,
which agrees bit for bit.
-/

namespace PegSolver

/-- Python `x & ~m` for nonnegative integers: clear in `x` every bit set
in `m`.  Stated via xor/and so that it evaluates in the kernel. -/
def andNot (x m : Nat) : Nat := x ^^^ (x &&& m)

/-- The 33 valid cells of the English cross, in increasing order (the
iteration order of the CPython frozenset of these small ints). -/
def ENGLISH_VALID_POSITIONS : List Nat :=
  [2, 3, 4, 9, 10, 11,
   14, 15, 16, 17, 18, 19, 20,
   21, 22, 23, 24, 25, 26, 27,
   28, 29, 30, 31, 32, 33, 34,
   37, 38, 39, 44, 45, 46]

/-- Bit mask of the 33 valid cells: `sum(1 << pos for pos in ENGLISH_VALID_POSITIONS)`. -/
def VALID_MASK : Nat := (ENGLISH_VALID_POSITIONS.map (fun pos => 1 <<< pos)).sum

/-- Centre cell of the 7x7 grid. -/
def CENTER_POS : Nat := 24

/-- Standard English start: full cross with the centre empty. -/
def ENGLISH_START : Nat := VALID_MASK ^^^ (1 <<< CENTER_POS)

/-- Goal state: a single peg in the centre. -/
def ENGLISH_GOAL : Nat := 1 <<< CENTER_POS

/-- Python `int.bit_count()` (hardware popcount).  Board words are 49-bit
masks stored in a 64-bit machine word, so counting the bits below 64 is
exact on the engine's domain. -/
def popcount (n : Nat) : Nat := (List.range 64).countP (fun i => n.testBit i)

/-- One move: `(from, jumped, to)`. -/
abbrev Move := Nat × Nat × Nat

/-- Jump application, `BitBoard.apply_move`: three xors, no branches. -/
def applyMove (pegs from_pos jumped to_pos : Nat) : Nat :=
  pegs ^^^ (1 <<< from_pos) ^^^ (1 <<< jumped) ^^^ (1 <<< to_pos)

/-- Direction mask `can_right = pegs & (pegs >> 1) & (holes >> 2)` on the
English cross (`holes = VALID_MASK & ~pegs`). -/
def canRightMask (pegs : Nat) : Nat :=
  pegs &&& (pegs >>> 1) &&& (andNot VALID_MASK pegs >>> 2)

/-- Direction mask `can_left = pegs & (pegs << 1) & (holes << 2)`. -/
def canLeftMask (pegs : Nat) : Nat :=
  pegs &&& (pegs <<< 1) &&& (andNot VALID_MASK pegs <<< 2)

/-- Direction mask `can_down = pegs & (pegs >> 7) & (holes >> 14)`. -/
def canDownMask (pegs : Nat) : Nat :=
  pegs &&& (pegs >>> 7) &&& (andNot VALID_MASK pegs >>> 14)

/-- Direction mask `can_up = pegs & (pegs << 7) & (holes << 14)`. -/
def canUpMask (pegs : Nat) : Nat :=
  pegs &&& (pegs <<< 7) &&& (andNot VALID_MASK pegs <<< 14)

/-- English-cross branch of `BitBoard.get_moves`: bit-parallel direction
masks filtered per position, in the frozenset iteration order. -/
def getMovesEnglish (pegs : Nat) : List Move :=
  ENGLISH_VALID_POSITIONS.flatMap (fun pos =>
    (if (canRightMask pegs).testBit pos ∧ pos % 7 ≤ 4 then
      [(pos, pos + 1, pos + 2)] else []) ++
    (if (canLeftMask pegs).testBit pos ∧ 2 ≤ pos % 7 then
      [(pos, pos - 1, pos - 2)] else []) ++
    (if (canDownMask pegs).testBit pos ∧ pos / 7 ≤ 4 ∧
        (pos + 14) ∈ ENGLISH_VALID_POSITIONS then
      [(pos, pos + 7, pos + 14)] else []) ++
    (if (canUpMask pegs).testBit pos ∧ 2 ≤ pos / 7 ∧
        (pos - 14) ∈ ENGLISH_VALID_POSITIONS then
      [(pos, pos - 7, pos - 14)] else []))

/-- Arbitrary-7x7 branch of `BitBoard.get_moves`: all 49 cells exist and
holes are the complement of the pegs in the full 49-bit mask. -/
def getMovesArbitrary (pegs : Nat) : List Move :=
  let holes := andNot ((1 <<< 49) - 1) pegs
  (List.range 49).flatMap (fun pos =>
    if ¬ pegs.testBit pos then []
    else
      (if pos % 7 ≤ 4 ∧ pegs.testBit (pos + 1) ∧ holes.testBit (pos + 2) then
        [(pos, pos + 1, pos + 2)] else []) ++
      (if 2 ≤ pos % 7 ∧ pegs.testBit (pos - 1) ∧ holes.testBit (pos - 2) then
        [(pos, pos - 1, pos - 2)] else []) ++
      (if pos / 7 ≤ 4 ∧ pegs.testBit (pos + 7) ∧ holes.testBit (pos + 14) then
        [(pos, pos + 7, pos + 14)] else []) ++
      (if 2 ≤ pos / 7 ∧ pegs.testBit (pos - 7) ∧ holes.testBit (pos - 14) then
        [(pos, pos - 7, pos - 14)] else []))

/-- `BitBoard.get_moves`: the arbitrary branch is taken exactly when some
peg lies outside the English cross. -/
def getMoves (pegs : Nat) : List Move :=
  if andNot pegs VALID_MASK ≠ 0 then getMovesArbitrary pegs else getMovesEnglish pegs

/-- Arbitrary-board branch of `BitBoard.is_dead`: scan all 49 cells for a
jump in any of the four directions. -/
def isDeadArbitraryScan (pegs : Nat) : Bool :=
  let holes := andNot ((1 <<< 49) - 1) pegs
  (List.range 49).all (fun pos =>
    if ¬ pegs.testBit pos then true
    else
      ¬ ((pos % 7 ≤ 4 ∧ pegs.testBit (pos + 1) ∧ holes.testBit (pos + 2)) ∨
         (2 ≤ pos % 7 ∧ pegs.testBit (pos - 1) ∧ holes.testBit (pos - 2)) ∨
         (pos / 7 ≤ 4 ∧ pegs.testBit (pos + 7) ∧ holes.testBit (pos + 14)) ∨
         (2 ≤ pos / 7 ∧ pegs.testBit (pos - 7) ∧ holes.testBit (pos - 14))))

/-- English-cross branch of `BitBoard.is_dead`: no direction mask has any
bit set (`not bool(a or b or c or d)` in the source). -/
def isDeadEnglishMasks (pegs : Nat) : Bool :=
  decide (canRightMask pegs = 0 ∧ canLeftMask pegs = 0 ∧
          canDownMask pegs = 0 ∧ canUpMask pegs = 0)

/-- `BitBoard.is_dead`: boards with at most one peg are never dead;
otherwise the branch is chosen exactly as in `get_moves`. -/
def isDead (pegs : Nat) : Bool :=
  if popcount pegs ≤ 1 then false
  else if andNot pegs VALID_MASK ≠ 0 then isDeadArbitraryScan pegs
  else isDeadEnglishMasks pegs

/-- Image of a cell under the 90-degree rotation `(r, c) -> (c, 6 - r)`,
written on linear positions. -/
def rotPos (pos : Nat) : Nat := (pos % 7) * 7 + (6 - pos / 7)

/-- Image of a cell under the horizontal flip `(r, c) -> (r, 6 - c)`. -/
def flipPos (pos : Nat) : Nat := (pos / 7) * 7 + (6 - pos % 7)

/-- Inverse of the rotation on the cross (three quarter turns); a proof
helper for reading one bit of a rotated mask. -/
def rotInvPos (pos : Nat) : Nat := rotPos (rotPos (rotPos pos))

/-- `_rotate_90_pegs`: rebuild the mask cell by cell over the valid
positions, dropping any image that falls outside the cross. -/
def rotate90Pegs (pegs : Nat) : Nat :=
  ENGLISH_VALID_POSITIONS.foldl (fun acc pos =>
    if pegs.testBit pos ∧ rotPos pos ∈ ENGLISH_VALID_POSITIONS then
      acc ||| (1 <<< rotPos pos)
    else acc) 0

/-- `_flip_h_pegs`: horizontal reflection of the peg mask. -/
def flipHPegs (pegs : Nat) : Nat :=
  ENGLISH_VALID_POSITIONS.foldl (fun acc pos =>
    if pegs.testBit pos ∧ flipPos pos ∈ ENGLISH_VALID_POSITIONS then
      acc ||| (1 <<< flipPos pos)
    else acc) 0

/-- English-cross branch of `BitBoard.canonical`: the minimum of the 8
variants `[p, r p, r² p, r³ p, f p, r f p, r² f p, r³ f p]`. -/
def canonicalEnglish (pegs : Nat) : Nat :=
  let r1 := rotate90Pegs pegs
  let r2 := rotate90Pegs r1
  let r3 := rotate90Pegs r2
  let f0 := flipHPegs pegs
  let f1 := rotate90Pegs f0
  let f2 := rotate90Pegs f1
  let f3 := rotate90Pegs f2
  List.foldl Nat.min pegs [r1, r2, r3, f0, f1, f2, f3]

/-- `BitBoard.canonical`: identity for boards with a peg outside the
cross, otherwise the minimum of the 8 D4 symmetries. -/
def canonicalPegs (pegs : Nat) : Nat :=
  if andNot pegs VALID_MASK ≠ 0 then pegs else canonicalEnglish pegs

/-- Move-replay loop of `verify_bitboard_solution`: thread the peg mask
through the candidate moves, failing (`none`) on the first move that
breaks a range, existence or occupancy check. -/
def verifyMoves (valid_mask : Nat) : Nat → List Move → Option Nat
  | pegs, [] => some pegs
  | pegs, (f, o, t) :: rest =>
    if f < 49 ∧ o < 49 ∧ t < 49 then
      if valid_mask.testBit f ∧ valid_mask.testBit o ∧ valid_mask.testBit t then
        if pegs.testBit f ∧ pegs.testBit o ∧ ¬ pegs.testBit t then
          verifyMoves valid_mask (pegs ^^^ (1 <<< f) ^^^ (1 <<< o) ^^^ (1 <<< t)) rest
        else none
      else none
    else none

/-- `verify_bitboard_solution(board, moves, require_center)`, the
component-E verifier, on a board given as `(pegs, valid_mask)`. -/
def verifyBitboardSolution (pegs valid_mask : Nat) (moves : List Move)
    (require_center : Bool) : Bool :=
  if moves.isEmpty then popcount pegs == 1
  else
    match verifyMoves valid_mask pegs moves with
    | none => false
    | some finalPegs =>
      if finalPegs = 0 then false
      else if popcount finalPegs ≠ 1 then false
      else if require_center then finalPegs == 1 <<< 24
      else true

/-- Plain xor-replay of a move list from a starting mask (repeated
`BitBoard.apply_move`, as used by `SequentialSolver._validate_solution`). -/
def replayMoves (pegs : Nat) (moves : List Move) : Nat :=
  moves.foldl (fun p m => p ^^^ (1 <<< m.1) ^^^ (1 <<< m.2.1) ^^^ (1 <<< m.2.2)) pegs

/-- Classical Pagoda weights of `heuristics/pagoda.py`, in the insertion
order of the source dict. -/
def PAGODA_WEIGHTS : List (Nat × Nat) :=
  [(2, 1), (3, 2), (4, 1),
   (9, 2), (10, 4), (11, 2),
   (14, 1), (15, 2), (16, 3), (17, 4), (18, 3), (19, 2), (20, 1),
   (21, 2), (22, 4), (23, 4), (24, 6), (25, 4), (26, 4), (27, 2),
   (28, 1), (29, 2), (30, 3), (31, 4), (32, 3), (33, 2), (34, 1),
   (37, 2), (38, 4), (39, 2),
   (44, 1), (45, 2), (46, 1)]

/-- `pagoda_value`: sum of the weights of the occupied cells. -/
def pagodaValue (pegs : Nat) : Nat :=
  PAGODA_WEIGHTS.foldl (fun total pw => if pegs.testBit pw.1 then total + pw.2 else total) 0

/-- Total weight a weight table assigns to one cell (a proof helper:
in `PAGODA_WEIGHTS` each valid cell is a key exactly once). -/
def weightsIn (l : List (Nat × Nat)) (pos : Nat) : Nat :=
  ((l.filter (fun pw => pw.1 == pos)).map (fun pw => pw.2)).sum

/-- Pagoda weight of one cell. -/
def weightAt (pos : Nat) : Nat := weightsIn PAGODA_WEIGHTS pos

/-- `compute_zobrist_hash`: xor of the table entries of the occupied
cells.  The seeded 64-bit random table `ZOBRIST_TABLE` is abstracted as a
function argument; every claim about the hash holds for any table. -/
def computeZobristHash (table : Nat → Nat) (pegs : Nat) : Nat :=
  ENGLISH_VALID_POSITIONS.foldl (fun h pos => if pegs.testBit pos then h ^^^ table pos else h) 0

/-- `update_zobrist_hash`: the O(1) three-xor incremental update. -/
def updateZobristHash (table : Nat → Nat) (current_hash from_pos jumped_pos to_pos : Nat) : Nat :=
  current_hash ^^^ table from_pos ^^^ table jumped_pos ^^^ table to_pos

/-- Pattern-database region TOP (stored sorted; the builder sorts the
source frozensets before numbering the cells). -/
def REGION_TOP : List Nat := [2, 3, 4, 9, 10, 11]

/-- Pattern-database region BOTTOM. -/
def REGION_BOTTOM : List Nat := [37, 38, 39, 44, 45, 46]

/-- Pattern-database region LEFT. -/
def REGION_LEFT : List Nat := [14, 15, 21, 22, 28, 29]

/-- Pattern-database region RIGHT. -/
def REGION_RIGHT : List Nat := [19, 20, 26, 27, 33, 34]

/-- Pattern-database region CENTER (9 cells). -/
def REGION_CENTER : List Nat := [16, 17, 18, 23, 24, 25, 30, 31, 32]

/-- Named regions, in the order of `REGION_NAMES` / `PatternDatabase.regions`. -/
def REGIONS : List (String × List Nat) :=
  [("TOP", REGION_TOP), ("BOTTOM", REGION_BOTTOM), ("LEFT", REGION_LEFT),
   ("RIGHT", REGION_RIGHT), ("CENTER", REGION_CENTER)]

/-- `extract_region_state`: project the peg mask onto a region, numbering
the region's cells 0, 1, ... in sorted order. -/
def extractRegionState (pegs : Nat) (region : List Nat) : Nat :=
  region.enum.foldl (fun state ip =>
    if pegs.testBit ip.2 then state ||| (1 <<< ip.1) else state) 0

/-- Lookup in a small dict modelled as an insertion-ordered entry list. -/
def dictLookup (entries : List (Nat × Nat)) (k : Nat) : Option Nat :=
  (entries.find? (fun e => e.1 == k)).map (fun e => e.2)

/-- Work loop of `PatternDatabase.build_region_db`: breadth-first scan
from the empty region state, where one abstract reverse step adds a single
peg.  The dict is modelled as a bitset of visited states (its key set)
plus the insertion-ordered `(state, cost)` entries; the fuel argument
bounds the number of queue pops (at most `2^region_size` states exist). -/
def buildRegionGo (region_size : Nat) :
    Nat → List Nat → Nat → List (Nat × Nat) → List (Nat × Nat)
  | 0, _, _, entries => entries
  | _ + 1, [], _, entries => entries
  | fuel + 1, state :: queue, visited, entries =>
    let current_cost := (dictLookup entries state).getD 0
    let step := (List.range region_size).foldl
      (fun (acc : Nat × List Nat × List (Nat × Nat)) i =>
        if state.testBit i then acc
        else
          let new_state := state ||| (1 <<< i)
          if acc.1.testBit new_state then acc
          else (acc.1 ||| (1 <<< new_state), acc.2.1 ++ [new_state],
                acc.2.2 ++ [(new_state, current_cost + 1)]))
      (visited, queue, entries)
    buildRegionGo region_size fuel step.2.1 step.1 step.2.2

/-- `PatternDatabase.build_region_db` for one region: start from
`db = {0: 0}`, queue `[0]`. -/
def buildRegionDb (region : List Nat) : List (Nat × Nat) :=
  buildRegionGo region.length 1024 [0] 1 [(0, 0)]

/-- `PatternDatabase.build_all`: the five region tables. -/
def buildAllDatabases : List (String × List (Nat × Nat)) :=
  [("TOP", buildRegionDb REGION_TOP), ("BOTTOM", buildRegionDb REGION_BOTTOM),
   ("LEFT", buildRegionDb REGION_LEFT), ("RIGHT", buildRegionDb REGION_RIGHT),
   ("CENTER", buildRegionDb REGION_CENTER)]

/-- `PatternDatabase.get_heuristic`: sum over the regions of the stored
cost of the projected state (0 when a region has no table or the state is
missing). -/
def getHeuristic (databases : List (String × List (Nat × Nat))) (pegs : Nat) : Nat :=
  REGIONS.foldl (fun total nr =>
    match databases.find? (fun d => d.1 == nr.1) with
    | none => total
    | some d => total + (dictLookup d.2 (extractRegionState pegs nr.2)).getD 0) 0

/-- `pattern_heuristic` after `build_all` has run (the lazily built
global database). -/
def patternHeuristicBuilt (pegs : Nat) : Nat := getHeuristic buildAllDatabases pegs

/-- Metadata stored with a cached solution (`SolutionMetadata`).  The
wall-clock fields `time_elapsed` and `timestamp` are I/O values that no
claim mentions and are omitted. -/
structure SolutionMetadata where
  moves : List String
  solver : String
  move_count : Nat
  deriving Repr, DecidableEq

/-- `SolutionMetadata.__init__`: a zero (falsy) `move_count` argument is
replaced by `len(moves)`. -/
def mkSolutionMetadata (moves : List String) (solver : String) (move_count : Nat) :
    SolutionMetadata :=
  ⟨moves, solver, if move_count = 0 then moves.length else move_count⟩

/-- `board_to_str` from `core/utils.py`: concatenate the matrix glyphs
row by row. -/
def boardToStr (board : List (List String)) : String :=
  String.join (board.map (fun row => String.join row))

/-- Key lookup in the solution store (a Python dict modelled as an
insertion-ordered association list with unique keys). -/
def storeGet (db : List (String × SolutionMetadata)) (key : String) :
    Option SolutionMetadata :=
  (db.find? (fun e => e.1 == key)).map (fun e => e.2)

/-- Dict assignment `db[key] = v`: replace an existing entry in place,
otherwise append. -/
def storeSet (db : List (String × SolutionMetadata)) (key : String)
    (v : SolutionMetadata) : List (String × SolutionMetadata) :=
  if db.any (fun e => e.1 == key) then
    db.map (fun e => if e.1 == key then (key, v) else e)
  else db ++ [(key, v)]

/-- `save_solution_enhanced`: replace an existing entry exactly when the
new solution is strictly shorter than the stored `move_count`; the file
round-trip (load, then atomic save) is modelled as the in-memory dict. -/
def saveSolutionEnhanced (db : List (String × SolutionMetadata))
    (board : List (List String)) (moves : List String) (solver : String) :
    List (String × SolutionMetadata) :=
  let key := boardToStr board
  match storeGet db key with
  | some existing =>
    if moves.length < existing.move_count then
      storeSet db key (mkSolutionMetadata moves solver moves.length)
    else db
  | none => storeSet db key (mkSolutionMetadata moves solver moves.length)

/-- `get_cached_solution_enhanced`: plain key lookup (a present metadata
object is always truthy). -/
def getCachedSolutionEnhanced (db : List (String × SolutionMetadata))
    (board : List (List String)) : Option SolutionMetadata :=
  storeGet db (boardToStr board)

/-- `SequentialSolver._validate_solution`: xor-replay the moves with
`apply_move` and accept iff exactly one peg remains.  This, not the
component-E verifier, is the gate Sequential applies. -/
def validateSolution (pegs : Nat) (solution : List Move) : Bool :=
  popcount (replayMoves pegs solution) == 1

/-- Acceptance loop of `SequentialSolver.solve` over the ordered strategy
list, with each engine's output supplied as data (timeouts, logging and
exception paths elided): a Lookup result is returned unvalidated when
truthy; any other result must pass `_validate_solution`. -/
def sequentialSelect (pegs : Nat) :
    List (String × Option (List Move)) → Option (List Move)
  | [] => none
  | (name, result) :: rest =>
    match result with
    | none => sequentialSelect pegs rest
    | some sol =>
      if name == "Lookup" then
        if sol.isEmpty then sequentialSelect pegs rest else some sol
      else if validateSolution pegs sol then some sol
      else sequentialSelect pegs rest

/-- Return logic of `GovernorSolver.solve` with the engine outputs
supplied as data: the Lookup result, then the chosen engine, then each
fallback is returned as soon as it is truthy (non-`None`, non-empty) —
no verification is applied anywhere on this path. -/
def firstTruthy : List (Option (List Move)) → Option (List Move)
  | [] => none
  | none :: rest => firstTruthy rest
  | some s :: rest => if s.isEmpty then firstTruthy rest else some s

/-- `GovernorSolver.solve`, modelled on its returnable results: the store
lookup followed by the chosen engine and the fallback ladder. -/
def governorSolve (lookupResult : Option (List Move))
    (engineResults : List (Option (List Move))) : Option (List Move) :=
  firstTruthy (lookupResult :: engineResults)

/-- Geometric legality of one move as the specification states it: the
jumped cell is adjacent to the source and the target is one further
single-cell step in the same of the four directions (collinear,
equi-spaced).  Written from the spec, for comparison with the code. -/
def specGeometricMove (m : Move) : Bool :=
  decide ((m.2.1 = m.1 + 1 ∧ m.2.2 = m.1 + 2) ∨
          (2 ≤ m.1 ∧ m.2.1 = m.1 - 1 ∧ m.2.2 = m.1 - 2) ∨
          (m.2.1 = m.1 + 7 ∧ m.2.2 = m.1 + 14) ∨
          (14 ≤ m.1 ∧ m.2.1 = m.1 - 7 ∧ m.2.2 = m.1 - 14))

/-- Characterisation of one generated move of the arbitrary-7x7 branch:
holes are the complement of the pegs inside the full 49-bit mask, and the
four directions carry the column/row anti-wrap guards. -/
def arbitraryMoveSpec (pegs : Nat) (m : Move) : Prop :=
  ∃ pos, pos < 49 ∧ pegs.testBit pos ∧
    ((pos % 7 ≤ 4 ∧ pegs.testBit (pos + 1) ∧
        (andNot ((1 <<< 49) - 1) pegs).testBit (pos + 2) ∧ m = (pos, pos + 1, pos + 2)) ∨
     (2 ≤ pos % 7 ∧ pegs.testBit (pos - 1) ∧
        (andNot ((1 <<< 49) - 1) pegs).testBit (pos - 2) ∧ m = (pos, pos - 1, pos - 2)) ∨
     (pos / 7 ≤ 4 ∧ pegs.testBit (pos + 7) ∧
        (andNot ((1 <<< 49) - 1) pegs).testBit (pos + 14) ∧ m = (pos, pos + 7, pos + 14)) ∨
     (2 ≤ pos / 7 ∧ pegs.testBit (pos - 7) ∧
        (andNot ((1 <<< 49) - 1) pegs).testBit (pos - 14) ∧ m = (pos, pos - 7, pos - 14)))

/-! ## Bit-level helper lemmas -/

theorem testBit_andNot (x m i : Nat) :
    (andNot x m).testBit i = (x.testBit i && !(m.testBit i)) := by
  simp only [andNot, Nat.testBit_xor, Nat.testBit_and]
  cases x.testBit i <;> cases m.testBit i <;> rfl

theorem testBit_one_shl (k i : Nat) : ((1 <<< k : Nat)).testBit i = decide (k = i) := by
  rw [Nat.one_shiftLeft, Nat.testBit_two_pow]

theorem andNot_eq_zero_iff (x m : Nat) :
    andNot x m = 0 ↔ ∀ i, x.testBit i = true → m.testBit i = true := by
  constructor
  · intro h i hx
    have hb := congrArg (fun n => Nat.testBit n i) h
    simp only [Nat.zero_testBit, testBit_andNot, hx, Bool.true_and] at hb
    simpa using hb
  · intro h
    apply Nat.zero_of_testBit_eq_false
    intro i
    rw [testBit_andNot]
    cases hx : x.testBit i
    · rfl
    · rw [h i hx]; rfl

theorem VALID_MASK_testBit (q : Nat) :
    VALID_MASK.testBit q = decide (q ∈ ENGLISH_VALID_POSITIONS) := by
  by_cases h : q < 47
  · interval_cases q <;> decide
  · have hlt : VALID_MASK < 2 ^ q := by
      calc VALID_MASK < 2 ^ 47 := by decide
        _ ≤ 2 ^ q := Nat.pow_le_pow_right (by norm_num) (Nat.le_of_not_lt h)
    rw [Nat.testBit_eq_false_of_lt hlt]
    have hmem : q ∉ ENGLISH_VALID_POSITIONS := by
      intro hq
      have hall : ∀ x ∈ ENGLISH_VALID_POSITIONS, x < 47 := by decide
      exact h (hall q hq)
    simp [hmem]

theorem mem_of_english_testBit {pegs q : Nat} (hEng : andNot pegs VALID_MASK = 0)
    (hq : pegs.testBit q = true) : q ∈ ENGLISH_VALID_POSITIONS := by
  have := (andNot_eq_zero_iff pegs VALID_MASK).mp hEng q hq
  rw [VALID_MASK_testBit] at this
  exact of_decide_eq_true this

theorem testBit_foldl_orCond (l : List Nat) (C : Nat → Prop) [DecidablePred C]
    (g : Nat → Nat) (init q : Nat) :
    (l.foldl (fun acc pos => if C pos then acc ||| (1 <<< g pos) else acc) init).testBit q
      = (init.testBit q || l.any (fun pos => decide (C pos) && decide (g pos = q))) := by
  induction l generalizing init with
  | nil => simp
  | cons a l ih =>
    simp only [List.foldl_cons, List.any_cons]
    by_cases h : C a
    · rw [if_pos h, ih, decide_eq_true h]
      simp only [Nat.testBit_or, testBit_one_shl, Bool.true_and]
      cases init.testBit q <;> cases decide (g a = q) <;> simp
    · rw [if_neg h, ih, decide_eq_false h]
      simp

/-! ## Characterisation of the two symmetry generators -/

theorem rotate90Pegs_testBit (p q : Nat) :
    (rotate90Pegs p).testBit q =
      (decide (q ∈ ENGLISH_VALID_POSITIONS) && p.testBit (rotInvPos q)) := by
  rw [rotate90Pegs,
    testBit_foldl_orCond ENGLISH_VALID_POSITIONS
      (fun pos => p.testBit pos ∧ rotPos pos ∈ ENGLISH_VALID_POSITIONS) rotPos 0 q]
  rw [Nat.zero_testBit, Bool.false_or]
  by_cases hq : q ∈ ENGLISH_VALID_POSITIONS
  · rw [decide_eq_true hq, Bool.true_and]
    rw [Bool.eq_iff_iff, List.any_eq_true]
    constructor
    · rintro ⟨pos, hmem, hcond⟩
      rw [Bool.and_eq_true, decide_eq_true_eq, decide_eq_true_eq] at hcond
      obtain ⟨⟨hbit, _⟩, heq⟩ := hcond
      have hinv : ∀ a ∈ ENGLISH_VALID_POSITIONS, rotInvPos (rotPos a) = a := by decide
      have : rotInvPos q = pos := by rw [← heq, hinv pos hmem]
      rw [this]; exact hbit
    · intro hbit
      refine ⟨rotInvPos q, ?_, ?_⟩
      · have : ∀ a ∈ ENGLISH_VALID_POSITIONS, rotInvPos a ∈ ENGLISH_VALID_POSITIONS := by decide
        exact this q hq
      · have hfix : ∀ a ∈ ENGLISH_VALID_POSITIONS, rotPos (rotInvPos a) = a := by decide
        rw [Bool.and_eq_true, decide_eq_true_eq, decide_eq_true_eq]
        refine ⟨⟨hbit, ?_⟩, hfix q hq⟩
        rw [hfix q hq]; exact hq
  · rw [decide_eq_false hq, Bool.false_and, List.any_eq_false]
    intro pos hmem h
    rw [Bool.and_eq_true, decide_eq_true_eq, decide_eq_true_eq] at h
    exact hq (h.2 ▸ h.1.2)

theorem flipHPegs_testBit (p q : Nat) :
    (flipHPegs p).testBit q =
      (decide (q ∈ ENGLISH_VALID_POSITIONS) && p.testBit (flipPos q)) := by
  rw [flipHPegs,
    testBit_foldl_orCond ENGLISH_VALID_POSITIONS
      (fun pos => p.testBit pos ∧ flipPos pos ∈ ENGLISH_VALID_POSITIONS) flipPos 0 q]
  rw [Nat.zero_testBit, Bool.false_or]
  by_cases hq : q ∈ ENGLISH_VALID_POSITIONS
  · rw [decide_eq_true hq, Bool.true_and]
    rw [Bool.eq_iff_iff, List.any_eq_true]
    constructor
    · rintro ⟨pos, hmem, hcond⟩
      rw [Bool.and_eq_true, decide_eq_true_eq, decide_eq_true_eq] at hcond
      obtain ⟨⟨hbit, _⟩, heq⟩ := hcond
      have hinv : ∀ a ∈ ENGLISH_VALID_POSITIONS, flipPos (flipPos a) = a := by decide
      have : flipPos q = pos := by rw [← heq, hinv pos hmem]
      rw [this]; exact hbit
    · intro hbit
      refine ⟨flipPos q, ?_, ?_⟩
      · have : ∀ a ∈ ENGLISH_VALID_POSITIONS, flipPos a ∈ ENGLISH_VALID_POSITIONS := by decide
        exact this q hq
      · have hfix : ∀ a ∈ ENGLISH_VALID_POSITIONS, flipPos (flipPos a) = a := by decide
        rw [Bool.and_eq_true, decide_eq_true_eq, decide_eq_true_eq]
        refine ⟨⟨hbit, ?_⟩, hfix q hq⟩
        rw [hfix q hq]; exact hq
  · rw [decide_eq_false hq, Bool.false_and, List.any_eq_false]
    intro pos hmem h
    rw [Bool.and_eq_true, decide_eq_true_eq, decide_eq_true_eq] at h
    exact hq (h.2 ▸ h.1.2)

/-! ## Algebra of the two generators on English-cross masks -/

theorem rotate90Pegs_english (p : Nat) : andNot (rotate90Pegs p) VALID_MASK = 0 := by
  rw [andNot_eq_zero_iff]
  intro i hi
  rw [rotate90Pegs_testBit, Bool.and_eq_true, decide_eq_true_eq] at hi
  rw [VALID_MASK_testBit]
  exact decide_eq_true hi.1

theorem flipHPegs_english (p : Nat) : andNot (flipHPegs p) VALID_MASK = 0 := by
  rw [andNot_eq_zero_iff]
  intro i hi
  rw [flipHPegs_testBit, Bool.and_eq_true, decide_eq_true_eq] at hi
  rw [VALID_MASK_testBit]
  exact decide_eq_true hi.1

theorem english_testBit_eq_false {p q : Nat} (hEng : andNot p VALID_MASK = 0)
    (hq : q ∉ ENGLISH_VALID_POSITIONS) : p.testBit q = false := by
  cases hb : p.testBit q
  · rfl
  · exact absurd (mem_of_english_testBit hEng hb) hq

theorem rotate90Pegs_four (p : Nat) (hEng : andNot p VALID_MASK = 0) :
    rotate90Pegs (rotate90Pegs (rotate90Pegs (rotate90Pegs p))) = p := by
  apply Nat.eq_of_testBit_eq
  intro q
  by_cases hq : q ∈ ENGLISH_VALID_POSITIONS
  · have h1 : ∀ a ∈ ENGLISH_VALID_POSITIONS, rotInvPos a ∈ ENGLISH_VALID_POSITIONS := by decide
    have h4 : ∀ a ∈ ENGLISH_VALID_POSITIONS,
        rotInvPos (rotInvPos (rotInvPos (rotInvPos a))) = a := by decide
    rw [rotate90Pegs_testBit, decide_eq_true hq, Bool.true_and,
      rotate90Pegs_testBit, decide_eq_true (h1 q hq), Bool.true_and,
      rotate90Pegs_testBit, decide_eq_true (h1 _ (h1 q hq)), Bool.true_and,
      rotate90Pegs_testBit, decide_eq_true (h1 _ (h1 _ (h1 q hq))), Bool.true_and,
      h4 q hq]
  · rw [rotate90Pegs_testBit, decide_eq_false hq, Bool.false_and,
      english_testBit_eq_false hEng hq]

theorem flipHPegs_two (p : Nat) (hEng : andNot p VALID_MASK = 0) :
    flipHPegs (flipHPegs p) = p := by
  apply Nat.eq_of_testBit_eq
  intro q
  by_cases hq : q ∈ ENGLISH_VALID_POSITIONS
  · have h1 : ∀ a ∈ ENGLISH_VALID_POSITIONS, flipPos a ∈ ENGLISH_VALID_POSITIONS := by decide
    have h2 : ∀ a ∈ ENGLISH_VALID_POSITIONS, flipPos (flipPos a) = a := by decide
    rw [flipHPegs_testBit, decide_eq_true hq, Bool.true_and,
      flipHPegs_testBit, decide_eq_true (h1 q hq), Bool.true_and, h2 q hq]
  · rw [flipHPegs_testBit, decide_eq_false hq, Bool.false_and,
      english_testBit_eq_false hEng hq]

theorem flipHPegs_rotate (p : Nat) :
    flipHPegs (rotate90Pegs p) =
      rotate90Pegs (rotate90Pegs (rotate90Pegs (flipHPegs p))) := by
  apply Nat.eq_of_testBit_eq
  intro q
  by_cases hq : q ∈ ENGLISH_VALID_POSITIONS
  · have h1 : ∀ a ∈ ENGLISH_VALID_POSITIONS, flipPos a ∈ ENGLISH_VALID_POSITIONS := by decide
    have h2 : ∀ a ∈ ENGLISH_VALID_POSITIONS, rotInvPos a ∈ ENGLISH_VALID_POSITIONS := by decide
    have hcomm : ∀ a ∈ ENGLISH_VALID_POSITIONS,
        rotInvPos (flipPos a) = flipPos (rotInvPos (rotInvPos (rotInvPos a))) := by decide
    rw [flipHPegs_testBit, decide_eq_true hq, Bool.true_and,
      rotate90Pegs_testBit, decide_eq_true (h1 q hq), Bool.true_and,
      rotate90Pegs_testBit, decide_eq_true hq, Bool.true_and,
      rotate90Pegs_testBit, decide_eq_true (h2 q hq), Bool.true_and,
      rotate90Pegs_testBit, decide_eq_true (h2 _ (h2 q hq)), Bool.true_and,
      flipHPegs_testBit, decide_eq_true (h2 _ (h2 _ (h2 q hq))), Bool.true_and,
      hcomm q hq]
  · rw [flipHPegs_testBit, decide_eq_false hq, Bool.false_and,
      rotate90Pegs_testBit, decide_eq_false hq, Bool.false_and]

/-! ## Minimum of a list, as the source's `min(variants)` -/

theorem foldl_min_le (a : Nat) (l : List Nat) :
    ∀ x ∈ a :: l, List.foldl Nat.min a l ≤ x := by
  induction l generalizing a with
  | nil =>
    intro x hx
    simp only [List.mem_cons, List.not_mem_nil, or_false] at hx
    simp [hx]
  | cons b l ih =>
    intro x hx
    simp only [List.mem_cons] at hx
    have hstep : List.foldl Nat.min a (b :: l) = List.foldl Nat.min (Nat.min a b) l := rfl
    rcases hx with rfl | rfl | hx
    · rw [hstep]
      exact Nat.le_trans (ih _ _ (List.mem_cons_self _ _)) (Nat.min_le_left _ _)
    · rw [hstep]
      exact Nat.le_trans (ih _ _ (List.mem_cons_self _ _)) (Nat.min_le_right _ _)
    · rw [hstep]
      exact ih _ x (List.mem_cons_of_mem _ hx)

theorem foldl_min_mem (a : Nat) (l : List Nat) :
    List.foldl Nat.min a l ∈ a :: l := by
  induction l generalizing a with
  | nil => simp
  | cons b l ih =>
    have h := ih (Nat.min a b)
    have hstep : List.foldl Nat.min a (b :: l) = List.foldl Nat.min (Nat.min a b) l := rfl
    have hmin : Nat.min a b = a ∨ Nat.min a b = b := by
      rcases Nat.le_total a b with hab | hab
      · exact Or.inl (Nat.min_eq_left hab)
      · exact Or.inr (Nat.min_eq_right hab)
    simp only [List.mem_cons] at h ⊢
    rcases h with h | h
    · rcases hmin with hm | hm
      · left; rw [hstep, h, hm]
      · right; left; rw [hstep, h, hm]
    · right; right; exact h

theorem foldl_min_congr {a b : Nat} {l1 l2 : List Nat}
    (h1 : ∀ x ∈ a :: l1, x ∈ b :: l2) (h2 : ∀ x ∈ b :: l2, x ∈ a :: l1) :
    List.foldl Nat.min a l1 = List.foldl Nat.min b l2 := by
  apply Nat.le_antisymm
  · exact foldl_min_le _ _ _ (h2 _ (foldl_min_mem _ _))
  · exact foldl_min_le _ _ _ (h1 _ (foldl_min_mem _ _))

/-! ## Invariance of the canonical form (claim C6) -/

theorem canonicalEnglish_unfold (p : Nat) : canonicalEnglish p = List.foldl Nat.min p
    [rotate90Pegs p,
     rotate90Pegs (rotate90Pegs p),
     rotate90Pegs (rotate90Pegs (rotate90Pegs p)),
     flipHPegs p,
     rotate90Pegs (flipHPegs p),
     rotate90Pegs (rotate90Pegs (flipHPegs p)),
     rotate90Pegs (rotate90Pegs (rotate90Pegs (flipHPegs p)))] := rfl

theorem canonicalEnglish_rotate (p : Nat) (hEng : andNot p VALID_MASK = 0) :
    canonicalEnglish (rotate90Pegs p) = canonicalEnglish p := by
  have e1 : rotate90Pegs (rotate90Pegs (rotate90Pegs (rotate90Pegs p))) = p :=
    rotate90Pegs_four p hEng
  have e1f : rotate90Pegs (rotate90Pegs (rotate90Pegs (rotate90Pegs (flipHPegs p)))) =
      flipHPegs p :=
    rotate90Pegs_four (flipHPegs p) (flipHPegs_english p)
  have e2 : flipHPegs (rotate90Pegs p) =
      rotate90Pegs (rotate90Pegs (rotate90Pegs (flipHPegs p))) :=
    flipHPegs_rotate p
  rw [canonicalEnglish_unfold (rotate90Pegs p), canonicalEnglish_unfold p, e2, e1, e1f]
  generalize rotate90Pegs (rotate90Pegs (rotate90Pegs (flipHPegs p))) = d3
  generalize rotate90Pegs (rotate90Pegs (flipHPegs p)) = d2
  generalize rotate90Pegs (flipHPegs p) = d1
  generalize flipHPegs p = d0
  generalize rotate90Pegs (rotate90Pegs (rotate90Pegs p)) = c3
  generalize rotate90Pegs (rotate90Pegs p) = c2
  generalize rotate90Pegs p = c1
  apply foldl_min_congr
  · intro x hx
    simp only [List.mem_cons, List.not_mem_nil, or_false] at hx
    simp only [List.mem_cons, List.not_mem_nil, or_false]
    tauto
  · intro x hx
    simp only [List.mem_cons, List.not_mem_nil, or_false] at hx
    simp only [List.mem_cons, List.not_mem_nil, or_false]
    tauto

theorem canonicalEnglish_flip (p : Nat) (hEng : andNot p VALID_MASK = 0) :
    canonicalEnglish (flipHPegs p) = canonicalEnglish p := by
  have e1 : flipHPegs (flipHPegs p) = p := flipHPegs_two p hEng
  rw [canonicalEnglish_unfold (flipHPegs p), canonicalEnglish_unfold p, e1]
  generalize rotate90Pegs (rotate90Pegs (rotate90Pegs (flipHPegs p))) = d3
  generalize rotate90Pegs (rotate90Pegs (flipHPegs p)) = d2
  generalize rotate90Pegs (flipHPegs p) = d1
  generalize flipHPegs p = d0
  generalize rotate90Pegs (rotate90Pegs (rotate90Pegs p)) = c3
  generalize rotate90Pegs (rotate90Pegs p) = c2
  generalize rotate90Pegs p = c1
  apply foldl_min_congr
  · intro x hx
    simp only [List.mem_cons, List.not_mem_nil, or_false] at hx
    simp only [List.mem_cons, List.not_mem_nil, or_false]
    tauto
  · intro x hx
    simp only [List.mem_cons, List.not_mem_nil, or_false] at hx
    simp only [List.mem_cons, List.not_mem_nil, or_false]
    tauto

theorem canonicalPegs_of_english {p : Nat} (hEng : andNot p VALID_MASK = 0) :
    canonicalPegs p = canonicalEnglish p := by
  rw [canonicalPegs, if_neg (fun hne => hne hEng)]

theorem canonicalPegs_rotate (p : Nat) (hEng : andNot p VALID_MASK = 0) :
    canonicalPegs (rotate90Pegs p) = canonicalPegs p := by
  rw [canonicalPegs_of_english (rotate90Pegs_english p), canonicalPegs_of_english hEng]
  exact canonicalEnglish_rotate p hEng

theorem canonicalPegs_flip (p : Nat) (hEng : andNot p VALID_MASK = 0) :
    canonicalPegs (flipHPegs p) = canonicalPegs p := by
  rw [canonicalPegs_of_english (flipHPegs_english p), canonicalPegs_of_english hEng]
  exact canonicalEnglish_flip p hEng

/-- Claim C6: for every English-cross board (no peg outside the 33-cell
mask) the canonical form is invariant under all 8 D4 symmetries —
identity, the three rotations, the horizontal flip and its three
rotations — so every member of the symmetry orbit canonicalises to the
same value. -/
theorem canonical_invariant_under_d4 (pegs : Nat)
    (hEng : andNot pegs VALID_MASK = 0) :
    canonicalPegs pegs = canonicalPegs pegs ∧
    canonicalPegs (rotate90Pegs pegs) = canonicalPegs pegs ∧
    canonicalPegs (rotate90Pegs (rotate90Pegs pegs)) = canonicalPegs pegs ∧
    canonicalPegs (rotate90Pegs (rotate90Pegs (rotate90Pegs pegs))) = canonicalPegs pegs ∧
    canonicalPegs (flipHPegs pegs) = canonicalPegs pegs ∧
    canonicalPegs (rotate90Pegs (flipHPegs pegs)) = canonicalPegs pegs ∧
    canonicalPegs (rotate90Pegs (rotate90Pegs (flipHPegs pegs))) = canonicalPegs pegs ∧
    canonicalPegs (rotate90Pegs (rotate90Pegs (rotate90Pegs (flipHPegs pegs)))) =
      canonicalPegs pegs := by
  have hr : andNot (rotate90Pegs pegs) VALID_MASK = 0 := rotate90Pegs_english pegs
  have hrr : andNot (rotate90Pegs (rotate90Pegs pegs)) VALID_MASK = 0 :=
    rotate90Pegs_english _
  have hf : andNot (flipHPegs pegs) VALID_MASK = 0 := flipHPegs_english pegs
  have hrf : andNot (rotate90Pegs (flipHPegs pegs)) VALID_MASK = 0 :=
    rotate90Pegs_english _
  have hrrf : andNot (rotate90Pegs (rotate90Pegs (flipHPegs pegs))) VALID_MASK = 0 :=
    rotate90Pegs_english _
  refine ⟨rfl, canonicalPegs_rotate pegs hEng, ?_, ?_, canonicalPegs_flip pegs hEng, ?_, ?_, ?_⟩
  · rw [canonicalPegs_rotate _ hr, canonicalPegs_rotate pegs hEng]
  · rw [canonicalPegs_rotate _ hrr, canonicalPegs_rotate _ hr,
      canonicalPegs_rotate pegs hEng]
  · rw [canonicalPegs_rotate _ hf, canonicalPegs_flip pegs hEng]
  · rw [canonicalPegs_rotate _ hrf, canonicalPegs_rotate _ hf,
      canonicalPegs_flip pegs hEng]
  · rw [canonicalPegs_rotate _ hrrf, canonicalPegs_rotate _ hrf,
      canonicalPegs_rotate _ hf, canonicalPegs_flip pegs hEng]

/-- Witness for C6 at a concrete asymmetric English board
(pegs at cells 16 and 24). -/
theorem canonical_invariant_under_d4_witness :
    andNot ((1 <<< 16) ||| (1 <<< 24)) VALID_MASK = 0 ∧
    canonicalPegs (rotate90Pegs ((1 <<< 16) ||| (1 <<< 24))) =
      canonicalPegs ((1 <<< 16) ||| (1 <<< 24)) :=
  ⟨by decide, (canonical_invariant_under_d4 ((1 <<< 16) ||| (1 <<< 24)) (by decide)).2.1⟩

/-! ## Membership in the generated move lists -/

theorem mem_if_singleton {c : Prop} [Decidable c] {x m : Move} :
    (m ∈ if c then [x] else []) ↔ c ∧ m = x := by
  by_cases h : c
  · simp [h]
  · simp [h]

theorem mem_getMovesEnglish_iff {pegs : Nat} {m : Move} :
    m ∈ getMovesEnglish pegs ↔ ∃ pos ∈ ENGLISH_VALID_POSITIONS,
      ((canRightMask pegs).testBit pos ∧ pos % 7 ≤ 4 ∧ m = (pos, pos + 1, pos + 2)) ∨
      ((canLeftMask pegs).testBit pos ∧ 2 ≤ pos % 7 ∧ m = (pos, pos - 1, pos - 2)) ∨
      ((canDownMask pegs).testBit pos ∧ pos / 7 ≤ 4 ∧
        (pos + 14) ∈ ENGLISH_VALID_POSITIONS ∧ m = (pos, pos + 7, pos + 14)) ∨
      ((canUpMask pegs).testBit pos ∧ 2 ≤ pos / 7 ∧
        (pos - 14) ∈ ENGLISH_VALID_POSITIONS ∧ m = (pos, pos - 7, pos - 14)) := by
  rw [getMovesEnglish, List.mem_flatMap]
  constructor
  · rintro ⟨pos, hpos, hm⟩
    refine ⟨pos, hpos, ?_⟩
    simp only [List.mem_append, mem_if_singleton, and_assoc, or_assoc] at hm
    simpa only [and_assoc, or_assoc] using hm
  · rintro ⟨pos, hpos, hm⟩
    refine ⟨pos, hpos, ?_⟩
    simp only [List.mem_append, mem_if_singleton, and_assoc, or_assoc]
    simpa only [and_assoc, or_assoc] using hm

theorem mem_getMovesArbitrary_iff {pegs : Nat} {m : Move} :
    m ∈ getMovesArbitrary pegs ↔ ∃ pos, pos < 49 ∧ pegs.testBit pos ∧
      ((pos % 7 ≤ 4 ∧ pegs.testBit (pos + 1) ∧
          (andNot ((1 <<< 49) - 1) pegs).testBit (pos + 2) ∧ m = (pos, pos + 1, pos + 2)) ∨
       (2 ≤ pos % 7 ∧ pegs.testBit (pos - 1) ∧
          (andNot ((1 <<< 49) - 1) pegs).testBit (pos - 2) ∧ m = (pos, pos - 1, pos - 2)) ∨
       (pos / 7 ≤ 4 ∧ pegs.testBit (pos + 7) ∧
          (andNot ((1 <<< 49) - 1) pegs).testBit (pos + 14) ∧ m = (pos, pos + 7, pos + 14)) ∨
       (2 ≤ pos / 7 ∧ pegs.testBit (pos - 7) ∧
          (andNot ((1 <<< 49) - 1) pegs).testBit (pos - 14) ∧ m = (pos, pos - 7, pos - 14))) := by
  rw [getMovesArbitrary, List.mem_flatMap]
  constructor
  · rintro ⟨pos, hpos, hm⟩
    rw [List.mem_range] at hpos
    by_cases hpeg : pegs.testBit pos
    · rw [if_neg (by simpa using hpeg)] at hm
      refine ⟨pos, hpos, hpeg, ?_⟩
      simp only [List.mem_append, mem_if_singleton, and_assoc, or_assoc] at hm
      simpa only [and_assoc, or_assoc] using hm
    · rw [if_pos (by simpa using hpeg)] at hm
      exact absurd hm (List.not_mem_nil m)
  · rintro ⟨pos, hpos, hpeg, hm⟩
    refine ⟨pos, List.mem_range.mpr hpos, ?_⟩
    rw [if_neg (by simpa using hpeg)]
    simp only [List.mem_append, mem_if_singleton, and_assoc, or_assoc]
    simpa only [and_assoc, or_assoc] using hm

theorem canRightMask_testBit (pegs pos : Nat) :
    (canRightMask pegs).testBit pos =
      (pegs.testBit pos && pegs.testBit (pos + 1) &&
        (VALID_MASK.testBit (pos + 2) && !pegs.testBit (pos + 2))) := by
  simp only [canRightMask, Nat.testBit_and, Nat.testBit_shiftRight, testBit_andNot]
  rw [Nat.add_comm 1 pos, Nat.add_comm 2 pos]

theorem canDownMask_testBit (pegs pos : Nat) :
    (canDownMask pegs).testBit pos =
      (pegs.testBit pos && pegs.testBit (pos + 7) &&
        (VALID_MASK.testBit (pos + 14) && !pegs.testBit (pos + 14))) := by
  simp only [canDownMask, Nat.testBit_and, Nat.testBit_shiftRight, testBit_andNot]
  rw [Nat.add_comm 7 pos, Nat.add_comm 14 pos]

theorem canLeftMask_testBit (pegs pos : Nat) (h2 : 2 ≤ pos) :
    (canLeftMask pegs).testBit pos =
      (pegs.testBit pos && pegs.testBit (pos - 1) &&
        (VALID_MASK.testBit (pos - 2) && !pegs.testBit (pos - 2))) := by
  have h1 : 1 ≤ pos := Nat.le_trans (by norm_num) h2
  simp only [canLeftMask, Nat.testBit_and, Nat.testBit_shiftLeft, testBit_andNot,
    ge_iff_le, h1, h2, decide_eq_true_eq]
  simp

theorem canUpMask_testBit (pegs pos : Nat) (h14 : 14 ≤ pos) :
    (canUpMask pegs).testBit pos =
      (pegs.testBit pos && pegs.testBit (pos - 7) &&
        (VALID_MASK.testBit (pos - 14) && !pegs.testBit (pos - 14))) := by
  have h7 : 7 ≤ pos := Nat.le_trans (by norm_num) h14
  simp only [canUpMask, Nat.testBit_and, Nat.testBit_shiftLeft, testBit_andNot,
    ge_iff_le, h7, h14, decide_eq_true_eq]
  simp

theorem ne_zero_of_testBit {n i : Nat} (h : n.testBit i = true) : n ≠ 0 := by
  intro h0
  rw [h0, Nat.zero_testBit] at h
  exact Bool.false_ne_true h

/-! ## Dead-end detection versus move generation (claim C4) -/

theorem isDeadArbitraryScan_iff (pegs : Nat) :
    isDeadArbitraryScan pegs = true ↔ getMovesArbitrary pegs = [] := by
  rw [isDeadArbitraryScan, List.all_eq_true]
  constructor
  · intro hall
    rw [List.eq_nil_iff_forall_not_mem]
    intro m hm
    rw [mem_getMovesArbitrary_iff] at hm
    obtain ⟨pos, h49, hpeg, hdisj⟩ := hm
    have hthis := hall pos (List.mem_range.mpr h49)
    rw [if_neg (by simpa using hpeg)] at hthis
    have hno := of_decide_eq_true hthis
    apply hno
    rcases hdisj with ⟨h1, h2, h3, _⟩ | ⟨h1, h2, h3, _⟩ | ⟨h1, h2, h3, _⟩ | ⟨h1, h2, h3, _⟩
    · exact Or.inl ⟨h1, h2, h3⟩
    · exact Or.inr (Or.inl ⟨h1, h2, h3⟩)
    · exact Or.inr (Or.inr (Or.inl ⟨h1, h2, h3⟩))
    · exact Or.inr (Or.inr (Or.inr ⟨h1, h2, h3⟩))
  · intro hempty pos hpos
    rw [List.mem_range] at hpos
    by_cases hpeg : pegs.testBit pos
    · rw [if_neg (by simpa using hpeg)]
      apply decide_eq_true
      intro hdisj
      have hnil : ∀ m : Move, m ∉ getMovesArbitrary pegs := by
        rw [hempty]; exact fun m => List.not_mem_nil m
      rcases hdisj with ⟨h1, h2, h3⟩ | ⟨h1, h2, h3⟩ | ⟨h1, h2, h3⟩ | ⟨h1, h2, h3⟩
      · exact hnil (pos, pos + 1, pos + 2) (mem_getMovesArbitrary_iff.mpr
          ⟨pos, hpos, hpeg, Or.inl ⟨h1, h2, h3, rfl⟩⟩)
      · exact hnil (pos, pos - 1, pos - 2) (mem_getMovesArbitrary_iff.mpr
          ⟨pos, hpos, hpeg, Or.inr (Or.inl ⟨h1, h2, h3, rfl⟩)⟩)
      · exact hnil (pos, pos + 7, pos + 14) (mem_getMovesArbitrary_iff.mpr
          ⟨pos, hpos, hpeg, Or.inr (Or.inr (Or.inl ⟨h1, h2, h3, rfl⟩))⟩)
      · exact hnil (pos, pos - 7, pos - 14) (mem_getMovesArbitrary_iff.mpr
          ⟨pos, hpos, hpeg, Or.inr (Or.inr (Or.inr ⟨h1, h2, h3, rfl⟩))⟩)
    · rw [if_pos (by simpa using hpeg)]

theorem getMovesEnglish_empty_of_masks (pegs : Nat)
    (hd : isDeadEnglishMasks pegs = true) : getMovesEnglish pegs = [] := by
  have hm := of_decide_eq_true hd
  rw [List.eq_nil_iff_forall_not_mem]
  intro m hmem
  rw [mem_getMovesEnglish_iff] at hmem
  obtain ⟨pos, _, hdisj⟩ := hmem
  rcases hdisj with ⟨hb, _⟩ | ⟨hb, _⟩ | ⟨hb, _, _⟩ | ⟨hb, _, _⟩
  · exact ne_zero_of_testBit hb hm.1
  · exact ne_zero_of_testBit hb hm.2.1
  · exact ne_zero_of_testBit hb hm.2.2.1
  · exact ne_zero_of_testBit hb hm.2.2.2

/-- Counterexample to claim C4 as stated: on the English-cross board with
pegs at cells 20 and 21 (adjacent in the 49-cell numbering but on
opposite edges of the cross) the wrap-around bit pattern makes the
`can_right` mask nonzero, so `is_dead` answers false, yet `get_moves`
generates nothing and more than one peg remains: the claimed equivalence
fails. -/
theorem isDead_iff_getMoves_counterexample :
    ¬ (isDead ((1 <<< 20) ||| (1 <<< 21)) = true ↔
        (getMoves ((1 <<< 20) ||| (1 <<< 21)) = [] ∧
         1 < popcount ((1 <<< 20) ||| (1 <<< 21)))) := by decide

/-- Claim C4 (amended): `isDead` still implies that `generateMoves` is
empty and more than one peg remains, a board with at most one peg is
never dead, and on the arbitrary-7x7 branch (some peg outside the cross)
the original equivalence does hold; only the converse on the
English-cross branch fails (wrap-around bits can make a direction mask
nonzero without any generated move). -/
theorem isDead_dead_end_properties (pegs : Nat) :
    (isDead pegs = true → getMoves pegs = [] ∧ 1 < popcount pegs) ∧
    (popcount pegs ≤ 1 → isDead pegs = false) ∧
    (andNot pegs VALID_MASK ≠ 0 →
      (isDead pegs = true ↔ (getMoves pegs = [] ∧ 1 < popcount pegs))) := by
  refine ⟨?_, ?_, ?_⟩
  · intro hd
    by_cases hc : popcount pegs ≤ 1
    · rw [isDead, if_pos hc] at hd
      exact absurd hd (by simp)
    · refine ⟨?_, Nat.lt_of_not_le hc⟩
      rw [isDead, if_neg hc] at hd
      by_cases hb : andNot pegs VALID_MASK ≠ 0
      · rw [if_pos hb] at hd
        rw [getMoves, if_pos hb]
        exact (isDeadArbitraryScan_iff pegs).mp hd
      · rw [if_neg hb] at hd
        rw [getMoves, if_neg hb]
        exact getMovesEnglish_empty_of_masks pegs hd
  · intro hc
    rw [isDead, if_pos hc]
  · intro hb
    constructor
    · intro hd
      by_cases hc : popcount pegs ≤ 1
      · rw [isDead, if_pos hc] at hd
        exact absurd hd (by simp)
      · refine ⟨?_, Nat.lt_of_not_le hc⟩
        rw [isDead, if_neg hc, if_pos hb] at hd
        rw [getMoves, if_pos hb]
        exact (isDeadArbitraryScan_iff pegs).mp hd
    · rintro ⟨hmoves, hcount⟩
      have hc : ¬ popcount pegs ≤ 1 := Nat.not_le_of_lt hcount
      rw [isDead, if_neg hc, if_pos hb]
      rw [getMoves, if_pos hb] at hmoves
      exact (isDeadArbitraryScan_iff pegs).mpr hmoves

/-- Witness for the amended C4: a dead English board (pegs at cells 2
and 4, no jump available) and a one-peg board. -/
theorem isDead_dead_end_properties_witness :
    (isDead ((1 <<< 2) ||| (1 <<< 4)) = true ∧
      getMoves ((1 <<< 2) ||| (1 <<< 4)) = [] ∧
      1 < popcount ((1 <<< 2) ||| (1 <<< 4))) ∧
    (popcount (1 <<< 24) ≤ 1 ∧ isDead (1 <<< 24) = false) :=
  ⟨⟨by decide, (isDead_dead_end_properties ((1 <<< 2) ||| (1 <<< 4))).1 (by decide)⟩,
   ⟨by decide, (isDead_dead_end_properties (1 <<< 24)).2.1 (by decide)⟩⟩

/-! ## Pagoda accounting (claim C5) -/

theorem weightsIn_nil (x : Nat) : weightsIn [] x = 0 := rfl

theorem weightsIn_cons (q w x : Nat) (l : List (Nat × Nat)) :
    weightsIn ((q, w) :: l) x = (if q = x then w else 0) + weightsIn l x := by
  by_cases h : q = x
  · rw [if_pos h, weightsIn, List.filter_cons, if_pos (by simpa using h)]
    simp only [List.map_cons, List.sum_cons]
    rfl
  · rw [if_neg h, weightsIn, List.filter_cons, if_neg (by simpa using h), Nat.zero_add]
    rfl

theorem pagodaFold_add_init (pegs : Nat) (l : List (Nat × Nat)) (a b : Nat) :
    l.foldl (fun total pw => if pegs.testBit pw.1 then total + pw.2 else total) (a + b)
      = l.foldl (fun total pw => if pegs.testBit pw.1 then total + pw.2 else total) a + b := by
  induction l generalizing a with
  | nil => rfl
  | cons pw l ih =>
    simp only [List.foldl_cons]
    by_cases h : pegs.testBit pw.1
    · rw [if_pos h, if_pos h, Nat.add_right_comm a b pw.2, ih]
    · rw [if_neg h, if_neg h, ih]

theorem testBit_xor3 (pegs f o t q : Nat) :
    (pegs ^^^ (1 <<< f) ^^^ (1 <<< o) ^^^ (1 <<< t)).testBit q =
      ((((pegs.testBit q).xor (decide (f = q))).xor (decide (o = q))).xor
        (decide (t = q))) := by
  simp only [Nat.testBit_xor, testBit_one_shl]

theorem pagodaFold_xor3 (l : List (Nat × Nat)) (pegs f o t : Nat)
    (hf : pegs.testBit f = true) (ho : pegs.testBit o = true)
    (ht : pegs.testBit t = false) (hfo : f ≠ o) (hft : f ≠ t) (hot : o ≠ t) :
    ∀ acc : Nat,
    l.foldl (fun total pw =>
        if (pegs ^^^ (1 <<< f) ^^^ (1 <<< o) ^^^ (1 <<< t)).testBit pw.1 then total + pw.2
        else total) acc + weightsIn l f + weightsIn l o
      = l.foldl (fun total pw => if pegs.testBit pw.1 then total + pw.2 else total) acc
        + weightsIn l t := by
  induction l with
  | nil => intro acc; simp [weightsIn_nil]
  | cons pw l ih =>
    intro acc
    obtain ⟨q, w⟩ := pw
    simp only [List.foldl_cons, weightsIn_cons]
    by_cases hqf : q = f
    · have hbitnew : (pegs ^^^ (1 <<< f) ^^^ (1 <<< o) ^^^ (1 <<< t)).testBit q = false := by
        rw [testBit_xor3, hqf, hf, decide_eq_true (Eq.refl f),
          decide_eq_false (fun h : o = f => hfo h.symm),
          decide_eq_false (fun h : t = f => hft h.symm)]
        rfl
      have hbitold : pegs.testBit q = true := by rw [hqf]; exact hf
      rw [hbitnew, hbitold]
      rw [if_pos hqf, if_neg (fun h : q = o => hfo (hqf.symm.trans h)),
        if_neg (fun h : q = t => hft (hqf.symm.trans h))]
      simp only [Bool.false_eq_true, if_false, if_true, Nat.zero_add]
      rw [pagodaFold_add_init]
      have hih := ih acc
      omega
    · by_cases hqo : q = o
      · have hbitnew : (pegs ^^^ (1 <<< f) ^^^ (1 <<< o) ^^^ (1 <<< t)).testBit q = false := by
          rw [testBit_xor3, hqo, ho, decide_eq_false (fun h : f = o => hfo h),
            decide_eq_true (Eq.refl o), decide_eq_false (fun h : t = o => hot h.symm)]
          rfl
        have hbitold : pegs.testBit q = true := by rw [hqo]; exact ho
        rw [hbitnew, hbitold]
        rw [if_neg hqf, if_pos hqo, if_neg (fun h : q = t => hot (hqo.symm.trans h))]
        simp only [Bool.false_eq_true, if_false, if_true, Nat.zero_add]
        rw [pagodaFold_add_init]
        have hih := ih acc
        omega
      · by_cases hqt : q = t
        · have hbitnew : (pegs ^^^ (1 <<< f) ^^^ (1 <<< o) ^^^ (1 <<< t)).testBit q = true := by
            rw [testBit_xor3, hqt, ht, decide_eq_false (fun h : f = t => hft h),
              decide_eq_false (fun h : o = t => hot h), decide_eq_true (Eq.refl t)]
            rfl
          have hbitold : pegs.testBit q = false := by rw [hqt]; exact ht
          rw [hbitnew, hbitold]
          rw [if_neg hqf, if_neg hqo, if_pos hqt]
          simp only [Bool.false_eq_true, if_false, if_true, Nat.zero_add]
          rw [pagodaFold_add_init]
          have hih := ih acc
          omega
        · have hbitnew : (pegs ^^^ (1 <<< f) ^^^ (1 <<< o) ^^^ (1 <<< t)).testBit q =
              pegs.testBit q := by
            rw [testBit_xor3, decide_eq_false (fun h : f = q => hqf h.symm),
              decide_eq_false (fun h : o = q => hqo h.symm),
              decide_eq_false (fun h : t = q => hqt h.symm)]
            cases pegs.testBit q <;> rfl
          rw [hbitnew, if_neg hqf, if_neg hqo, if_neg hqt]
          simp only [Nat.zero_add]
          by_cases hb : pegs.testBit q
          · rw [if_pos hb]
            exact ih (acc + w)
          · rw [if_neg hb]
            exact ih acc

/-- Claim C5: on the English cross (all pegs inside the 33-cell mask)
the Pagoda sum never increases under any generated legal move. -/
theorem pagoda_monotone_under_moves (pegs : Nat) (m : Move)
    (hEng : andNot pegs VALID_MASK = 0) (hm : m ∈ getMoves pegs) :
    pagodaValue (applyMove pegs m.1 m.2.1 m.2.2) ≤ pagodaValue pegs := by
  rw [getMoves, if_neg (fun h => h hEng)] at hm
  rw [mem_getMovesEnglish_iff] at hm
  obtain ⟨pos, hpos, hdisj⟩ := hm
  have hwr : ∀ p ∈ ENGLISH_VALID_POSITIONS, p % 7 ≤ 4 →
      (p + 1) ∈ ENGLISH_VALID_POSITIONS → (p + 2) ∈ ENGLISH_VALID_POSITIONS →
      weightAt (p + 2) ≤ weightAt p + weightAt (p + 1) := by decide
  have hwl : ∀ p ∈ ENGLISH_VALID_POSITIONS, 2 ≤ p % 7 →
      (p - 1) ∈ ENGLISH_VALID_POSITIONS → (p - 2) ∈ ENGLISH_VALID_POSITIONS →
      weightAt (p - 2) ≤ weightAt p + weightAt (p - 1) := by decide
  have hwd : ∀ p ∈ ENGLISH_VALID_POSITIONS, p / 7 ≤ 4 →
      (p + 7) ∈ ENGLISH_VALID_POSITIONS → (p + 14) ∈ ENGLISH_VALID_POSITIONS →
      weightAt (p + 14) ≤ weightAt p + weightAt (p + 7) := by decide
  have hwu : ∀ p ∈ ENGLISH_VALID_POSITIONS, 2 ≤ p / 7 →
      (p - 7) ∈ ENGLISH_VALID_POSITIONS → (p - 14) ∈ ENGLISH_VALID_POSITIONS →
      weightAt (p - 14) ≤ weightAt p + weightAt (p - 7) := by decide
  rcases hdisj with ⟨hb, hcol, hmeq⟩ | ⟨hb, hcol, hmeq⟩ |
    ⟨hb, hrow, hto, hmeq⟩ | ⟨hb, hrow, hto, hmeq⟩
  · rw [canRightMask_testBit] at hb
    simp only [Bool.and_eq_true, Bool.not_eq_true'] at hb
    obtain ⟨⟨hbf, hbo⟩, hvt, hbt⟩ := hb
    have hoMem : (pos + 1) ∈ ENGLISH_VALID_POSITIONS := mem_of_english_testBit hEng hbo
    have htMem : (pos + 2) ∈ ENGLISH_VALID_POSITIONS := by
      rw [VALID_MASK_testBit] at hvt
      exact of_decide_eq_true hvt
    subst hmeq
    have heq := pagodaFold_xor3 PAGODA_WEIGHTS pegs pos (pos + 1) (pos + 2) hbf hbo hbt
      (by omega) (by omega) (by omega) 0
    have hw := hwr pos hpos hcol hoMem htMem
    show pagodaValue (pegs ^^^ (1 <<< pos) ^^^ (1 <<< (pos + 1)) ^^^ (1 <<< (pos + 2))) ≤
      pagodaValue pegs
    rw [pagodaValue, pagodaValue]
    rw [weightAt, weightAt, weightAt] at hw
    omega
  · rw [canLeftMask_testBit pegs pos (by omega)] at hb
    simp only [Bool.and_eq_true, Bool.not_eq_true'] at hb
    obtain ⟨⟨hbf, hbo⟩, hvt, hbt⟩ := hb
    have hoMem : (pos - 1) ∈ ENGLISH_VALID_POSITIONS := mem_of_english_testBit hEng hbo
    have htMem : (pos - 2) ∈ ENGLISH_VALID_POSITIONS := by
      rw [VALID_MASK_testBit] at hvt
      exact of_decide_eq_true hvt
    subst hmeq
    have heq := pagodaFold_xor3 PAGODA_WEIGHTS pegs pos (pos - 1) (pos - 2) hbf hbo hbt
      (by omega) (by omega) (by omega) 0
    have hw := hwl pos hpos hcol hoMem htMem
    show pagodaValue (pegs ^^^ (1 <<< pos) ^^^ (1 <<< (pos - 1)) ^^^ (1 <<< (pos - 2))) ≤
      pagodaValue pegs
    rw [pagodaValue, pagodaValue]
    rw [weightAt, weightAt, weightAt] at hw
    omega
  · rw [canDownMask_testBit] at hb
    simp only [Bool.and_eq_true, Bool.not_eq_true'] at hb
    obtain ⟨⟨hbf, hbo⟩, hvt, hbt⟩ := hb
    have hoMem : (pos + 7) ∈ ENGLISH_VALID_POSITIONS := mem_of_english_testBit hEng hbo
    subst hmeq
    have heq := pagodaFold_xor3 PAGODA_WEIGHTS pegs pos (pos + 7) (pos + 14) hbf hbo hbt
      (by omega) (by omega) (by omega) 0
    have hw := hwd pos hpos hrow hoMem hto
    show pagodaValue (pegs ^^^ (1 <<< pos) ^^^ (1 <<< (pos + 7)) ^^^ (1 <<< (pos + 14))) ≤
      pagodaValue pegs
    rw [pagodaValue, pagodaValue]
    rw [weightAt, weightAt, weightAt] at hw
    omega
  · have h14 : 14 ≤ pos := by
      have hall : ∀ p ∈ ENGLISH_VALID_POSITIONS, 2 ≤ p / 7 → 14 ≤ p := by decide
      exact hall pos hpos hrow
    rw [canUpMask_testBit pegs pos h14] at hb
    simp only [Bool.and_eq_true, Bool.not_eq_true'] at hb
    obtain ⟨⟨hbf, hbo⟩, hvt, hbt⟩ := hb
    have hoMem : (pos - 7) ∈ ENGLISH_VALID_POSITIONS := mem_of_english_testBit hEng hbo
    subst hmeq
    have heq := pagodaFold_xor3 PAGODA_WEIGHTS pegs pos (pos - 7) (pos - 14) hbf hbo hbt
      (by omega) (by omega) (by omega) 0
    have hw := hwu pos hpos hrow hoMem hto
    show pagodaValue (pegs ^^^ (1 <<< pos) ^^^ (1 <<< (pos - 7)) ^^^ (1 <<< (pos - 14))) ≤
      pagodaValue pegs
    rw [pagodaValue, pagodaValue]
    rw [weightAt, weightAt, weightAt] at hw
    omega

/-- Witness for C5: a generated move of the English start position does
not increase the Pagoda sum. -/
theorem pagoda_monotone_under_moves_witness :
    andNot ENGLISH_START VALID_MASK = 0 ∧ ((10, 17, 24) : Move) ∈ getMoves ENGLISH_START ∧
    pagodaValue (applyMove ENGLISH_START 10 17 24) ≤ pagodaValue ENGLISH_START :=
  ⟨by decide, by decide,
   pagoda_monotone_under_moves ENGLISH_START (10, 17, 24) (by decide) (by decide)⟩

/-! ## Zobrist hashing (claim C7) -/

theorem xor_right_comm (a b c : Nat) : a ^^^ b ^^^ c = a ^^^ c ^^^ b := by
  rw [Nat.xor_assoc, Nat.xor_comm b c, ← Nat.xor_assoc]

theorem xor_rotate3 (b x y z : Nat) : b ^^^ x ^^^ y ^^^ z = b ^^^ z ^^^ y ^^^ x := by
  rw [xor_right_comm (b ^^^ x) y z, xor_right_comm b x z, xor_right_comm (b ^^^ z) x y]

theorem zobristFold_init (table : Nat → Nat) (pegs : Nat) (l : List Nat) :
    ∀ x y : Nat,
    l.foldl (fun h pos => if pegs.testBit pos then h ^^^ table pos else h) (x ^^^ y)
      = l.foldl (fun h pos => if pegs.testBit pos then h ^^^ table pos else h) x ^^^ y := by
  induction l with
  | nil => intro x y; rfl
  | cons a l ih =>
    intro x y
    simp only [List.foldl_cons]
    by_cases hb : pegs.testBit a
    · rw [if_pos hb, if_pos hb, xor_right_comm x y (table a), ih]
    · rw [if_neg hb, if_neg hb, ih]

theorem zobristFold_xor3 (table : Nat → Nat) (pegs f o t : Nat)
    (hf : pegs.testBit f = true) (ho : pegs.testBit o = true)
    (ht : pegs.testBit t = false) (hfo : f ≠ o) (hft : f ≠ t) (hot : o ≠ t) :
    ∀ l : List Nat, l.Nodup → ∀ acc : Nat,
    l.foldl (fun h pos =>
        if (pegs ^^^ (1 <<< f) ^^^ (1 <<< o) ^^^ (1 <<< t)).testBit pos then h ^^^ table pos
        else h) acc
      ^^^ (if f ∈ l then table f else 0) ^^^ (if o ∈ l then table o else 0)
    = l.foldl (fun h pos => if pegs.testBit pos then h ^^^ table pos else h) acc
      ^^^ (if t ∈ l then table t else 0) := by
  intro l
  induction l with
  | nil => intro _ acc; simp
  | cons a l ih =>
    intro hnd acc
    rw [List.nodup_cons] at hnd
    obtain ⟨ha, hnd⟩ := hnd
    simp only [List.foldl_cons, List.mem_cons]
    by_cases haf : a = f
    · have hbitnew : (pegs ^^^ (1 <<< f) ^^^ (1 <<< o) ^^^ (1 <<< t)).testBit a = false := by
        rw [testBit_xor3, haf, hf, decide_eq_true (Eq.refl f),
          decide_eq_false (fun h : o = f => hfo h.symm),
          decide_eq_false (fun h : t = f => hft h.symm)]
        rfl
      have hbitold : pegs.testBit a = true := by rw [haf]; exact hf
      rw [hbitnew, hbitold]
      simp only [Bool.false_eq_true, if_false, if_true]
      rw [if_pos (Or.inl haf.symm)]
      have hfnl : f ∉ l := fun h => ha (haf ▸ h)
      have homem : (if (o = a ∨ o ∈ l) then table o else 0) = (if o ∈ l then table o else 0) := by
        by_cases h : o ∈ l
        · rw [if_pos (Or.inr h), if_pos h]
        · rw [if_neg ?_, if_neg h]
          rintro (h1 | h2)
          · exact hfo (haf ▸ h1).symm
          · exact h h2
      have htmem : (if (t = a ∨ t ∈ l) then table t else 0) = (if t ∈ l then table t else 0) := by
        by_cases h : t ∈ l
        · rw [if_pos (Or.inr h), if_pos h]
        · rw [if_neg ?_, if_neg h]
          rintro (h1 | h2)
          · exact hft (haf ▸ h1).symm
          · exact h h2
      rw [homem, htmem, zobristFold_init]
      have hih := ih hnd acc
      rw [if_neg hfnl, Nat.xor_zero] at hih
      rw [xor_right_comm _ (table f) (if o ∈ l then table o else 0), hih,
        xor_right_comm, haf]
    · by_cases hao : a = o
      · have hbitnew : (pegs ^^^ (1 <<< f) ^^^ (1 <<< o) ^^^ (1 <<< t)).testBit a = false := by
          rw [testBit_xor3, hao, ho, decide_eq_false (fun h : f = o => hfo h),
            decide_eq_true (Eq.refl o), decide_eq_false (fun h : t = o => hot h.symm)]
          rfl
        have hbitold : pegs.testBit a = true := by rw [hao]; exact ho
        rw [hbitnew, hbitold]
        simp only [Bool.false_eq_true, if_false, if_true]
        rw [if_pos (Or.inl hao.symm)]
        have honl : o ∉ l := fun h => ha (hao ▸ h)
        have hfmem : (if (f = a ∨ f ∈ l) then table f else 0) =
            (if f ∈ l then table f else 0) := by
          by_cases h : f ∈ l
          · rw [if_pos (Or.inr h), if_pos h]
          · rw [if_neg ?_, if_neg h]
            rintro (h1 | h2)
            · exact hfo (h1.trans hao)
            · exact h h2
        have htmem : (if (t = a ∨ t ∈ l) then table t else 0) =
            (if t ∈ l then table t else 0) := by
          by_cases h : t ∈ l
          · rw [if_pos (Or.inr h), if_pos h]
          · rw [if_neg ?_, if_neg h]
            rintro (h1 | h2)
            · exact hot (hao ▸ h1).symm
            · exact h h2
        rw [hfmem, htmem, zobristFold_init]
        have hih := ih hnd acc
        rw [if_neg honl, Nat.xor_zero] at hih
        rw [Nat.xor_assoc, Nat.xor_comm (if f ∈ l then table f else 0) (table o),
          ← Nat.xor_assoc, xor_right_comm _ (table o) (if f ∈ l then table f else 0),
          hih, xor_right_comm, hao]
      · by_cases hat : a = t
        · have hbitnew : (pegs ^^^ (1 <<< f) ^^^ (1 <<< o) ^^^ (1 <<< t)).testBit a = true := by
            rw [testBit_xor3, hat, ht, decide_eq_false (fun h : f = t => hft h),
              decide_eq_false (fun h : o = t => hot h), decide_eq_true (Eq.refl t)]
            rfl
          have hbitold : pegs.testBit a = false := by rw [hat]; exact ht
          rw [hbitnew, hbitold]
          simp only [Bool.false_eq_true, if_false, if_true]
          rw [if_pos (Or.inl hat.symm)]
          have htnl : t ∉ l := fun h => ha (hat ▸ h)
          have hfmem : (if (f = a ∨ f ∈ l) then table f else 0) =
              (if f ∈ l then table f else 0) := by
            by_cases h : f ∈ l
            · rw [if_pos (Or.inr h), if_pos h]
            · rw [if_neg ?_, if_neg h]
              rintro (h1 | h2)
              · exact hft (h1.trans hat)
              · exact h h2
          have homem : (if (o = a ∨ o ∈ l) then table o else 0) =
              (if o ∈ l then table o else 0) := by
            by_cases h : o ∈ l
            · rw [if_pos (Or.inr h), if_pos h]
            · rw [if_neg ?_, if_neg h]
              rintro (h1 | h2)
              · exact hot (h1.trans hat)
              · exact h h2
          rw [hfmem, homem, zobristFold_init, hat]
          have hih := ih hnd acc
          rw [if_neg htnl, Nat.xor_zero] at hih
          rw [xor_right_comm _ (table t) (if f ∈ l then table f else 0),
            xor_right_comm _ (table t) (if o ∈ l then table o else 0), hih]
        · have hbitnew : (pegs ^^^ (1 <<< f) ^^^ (1 <<< o) ^^^ (1 <<< t)).testBit a =
              pegs.testBit a := by
            rw [testBit_xor3, decide_eq_false (fun h : f = a => haf h.symm),
              decide_eq_false (fun h : o = a => hao h.symm),
              decide_eq_false (fun h : t = a => hat h.symm)]
            cases pegs.testBit a <;> rfl
          rw [hbitnew]
          have hfmem : (if (f = a ∨ f ∈ l) then table f else 0) =
              (if f ∈ l then table f else 0) := by
            by_cases h : f ∈ l
            · rw [if_pos (Or.inr h), if_pos h]
            · rw [if_neg ?_, if_neg h]
              rintro (h1 | h2)
              · exact haf h1.symm
              · exact h h2
          have homem : (if (o = a ∨ o ∈ l) then table o else 0) =
              (if o ∈ l then table o else 0) := by
            by_cases h : o ∈ l
            · rw [if_pos (Or.inr h), if_pos h]
            · rw [if_neg ?_, if_neg h]
              rintro (h1 | h2)
              · exact hao h1.symm
              · exact h h2
          have htmem : (if (t = a ∨ t ∈ l) then table t else 0) =
              (if t ∈ l then table t else 0) := by
            by_cases h : t ∈ l
            · rw [if_pos (Or.inr h), if_pos h]
            · rw [if_neg ?_, if_neg h]
              rintro (h1 | h2)
              · exact hat h1.symm
              · exact h h2
          rw [hfmem, homem, htmem]
          by_cases hb : pegs.testBit a
          · rw [if_pos hb]
            exact ih hnd (acc ^^^ table a)
          · rw [if_neg hb]
            exact ih hnd acc

/-- Claim C7: for any Zobrist table, on an English-cross board the hash
of the board after a generated move, recomputed from scratch over the
set bits, equals the incremental three-xor update of the old hash. -/
theorem zobrist_incremental_agrees (table : Nat → Nat) (pegs : Nat) (m : Move)
    (hEng : andNot pegs VALID_MASK = 0) (hm : m ∈ getMoves pegs) :
    computeZobristHash table (applyMove pegs m.1 m.2.1 m.2.2)
      = updateZobristHash table (computeZobristHash table pegs) m.1 m.2.1 m.2.2 := by
  rw [getMoves, if_neg (fun h => h hEng)] at hm
  rw [mem_getMovesEnglish_iff] at hm
  obtain ⟨pos, hpos, hdisj⟩ := hm
  have hnd : ENGLISH_VALID_POSITIONS.Nodup := by decide
  have main : ∀ f o t : Nat, pegs.testBit f = true → pegs.testBit o = true →
      pegs.testBit t = false → f ≠ o → f ≠ t → o ≠ t →
      f ∈ ENGLISH_VALID_POSITIONS → o ∈ ENGLISH_VALID_POSITIONS →
      t ∈ ENGLISH_VALID_POSITIONS →
      computeZobristHash table (applyMove pegs f o t)
        = updateZobristHash table (computeZobristHash table pegs) f o t := by
    intro f o t hf ho ht hfo hft hot hfm hom htm
    have heq := zobristFold_xor3 table pegs f o t hf ho ht hfo hft hot
      ENGLISH_VALID_POSITIONS hnd 0
    rw [if_pos hfm, if_pos hom, if_pos htm] at heq
    rw [updateZobristHash, computeZobristHash, computeZobristHash, applyMove]
    have h2 := congrArg (fun z => z ^^^ table o ^^^ table f) heq
    simp only at h2
    rw [Nat.xor_assoc _ (table o) (table o), Nat.xor_self, Nat.xor_zero,
      Nat.xor_assoc _ (table f) (table f), Nat.xor_self, Nat.xor_zero] at h2
    rw [h2, xor_rotate3]
  rcases hdisj with ⟨hb, hcol, hmeq⟩ | ⟨hb, hcol, hmeq⟩ |
    ⟨hb, hrow, hto, hmeq⟩ | ⟨hb, hrow, hto, hmeq⟩
  · rw [canRightMask_testBit] at hb
    simp only [Bool.and_eq_true, Bool.not_eq_true'] at hb
    obtain ⟨⟨hbf, hbo⟩, hvt, hbt⟩ := hb
    subst hmeq
    exact main pos (pos + 1) (pos + 2) hbf hbo hbt (by omega) (by omega) (by omega)
      hpos (mem_of_english_testBit hEng hbo)
      (by rw [VALID_MASK_testBit] at hvt; exact of_decide_eq_true hvt)
  · rw [canLeftMask_testBit pegs pos (by
      have hall : ∀ p ∈ ENGLISH_VALID_POSITIONS, 2 ≤ p % 7 → 2 ≤ p := by decide
      exact hall pos hpos hcol)] at hb
    simp only [Bool.and_eq_true, Bool.not_eq_true'] at hb
    obtain ⟨⟨hbf, hbo⟩, hvt, hbt⟩ := hb
    have h2 : 2 ≤ pos := by
      have hall : ∀ p ∈ ENGLISH_VALID_POSITIONS, 2 ≤ p % 7 → 2 ≤ p := by decide
      exact hall pos hpos hcol
    subst hmeq
    exact main pos (pos - 1) (pos - 2) hbf hbo hbt (by omega) (by omega) (by omega)
      hpos (mem_of_english_testBit hEng hbo)
      (by rw [VALID_MASK_testBit] at hvt; exact of_decide_eq_true hvt)
  · rw [canDownMask_testBit] at hb
    simp only [Bool.and_eq_true, Bool.not_eq_true'] at hb
    obtain ⟨⟨hbf, hbo⟩, hvt, hbt⟩ := hb
    subst hmeq
    exact main pos (pos + 7) (pos + 14) hbf hbo hbt (by omega) (by omega) (by omega)
      hpos (mem_of_english_testBit hEng hbo)
      (by rw [VALID_MASK_testBit] at hvt; exact of_decide_eq_true hvt)
  · have h14 : 14 ≤ pos := by
      have hall : ∀ p ∈ ENGLISH_VALID_POSITIONS, 2 ≤ p / 7 → 14 ≤ p := by decide
      exact hall pos hpos hrow
    rw [canUpMask_testBit pegs pos h14] at hb
    simp only [Bool.and_eq_true, Bool.not_eq_true'] at hb
    obtain ⟨⟨hbf, hbo⟩, hvt, hbt⟩ := hb
    subst hmeq
    exact main pos (pos - 7) (pos - 14) hbf hbo hbt (by omega) (by omega) (by omega)
      hpos (mem_of_english_testBit hEng hbo)
      (by rw [VALID_MASK_testBit] at hvt; exact of_decide_eq_true hvt)

/-- Witness for C7: the incremental update agrees with recomputation for
a concrete table (the identity function stands in for the seeded random
table) and a generated move of the English start position. -/
theorem zobrist_incremental_agrees_witness :
    andNot ENGLISH_START VALID_MASK = 0 ∧ ((10, 17, 24) : Move) ∈ getMoves ENGLISH_START ∧
    computeZobristHash (fun z => z) (applyMove ENGLISH_START 10 17 24)
      = updateZobristHash (fun z => z) (computeZobristHash (fun z => z) ENGLISH_START)
          10 17 24 :=
  ⟨by decide, by decide,
   zobrist_incremental_agrees (fun z => z) ENGLISH_START (10, 17, 24) (by decide) (by decide)⟩

/-! ## The verifier (claims C1 and C10) -/

theorem replayMoves_nil (pegs : Nat) : replayMoves pegs [] = pegs := rfl

theorem replayMoves_cons (pegs : Nat) (m : Move) (rest : List Move) :
    replayMoves pegs (m :: rest) =
      replayMoves (pegs ^^^ (1 <<< m.1) ^^^ (1 <<< m.2.1) ^^^ (1 <<< m.2.2)) rest := rfl

theorem verifyMoves_sound (valid_mask : Nat) :
    ∀ (moves : List Move) (pegs finalPegs : Nat),
    verifyMoves valid_mask pegs moves = some finalPegs →
    finalPegs = replayMoves pegs moves ∧
    ∀ i (hi : i < moves.length),
      (moves.get ⟨i, hi⟩).1 < 49 ∧ (moves.get ⟨i, hi⟩).2.1 < 49 ∧
      (moves.get ⟨i, hi⟩).2.2 < 49 ∧
      valid_mask.testBit (moves.get ⟨i, hi⟩).1 = true ∧
      valid_mask.testBit (moves.get ⟨i, hi⟩).2.1 = true ∧
      valid_mask.testBit (moves.get ⟨i, hi⟩).2.2 = true ∧
      (replayMoves pegs (moves.take i)).testBit (moves.get ⟨i, hi⟩).1 = true ∧
      (replayMoves pegs (moves.take i)).testBit (moves.get ⟨i, hi⟩).2.1 = true ∧
      (replayMoves pegs (moves.take i)).testBit (moves.get ⟨i, hi⟩).2.2 = false := by
  intro moves
  induction moves with
  | nil =>
    intro pegs finalPegs h
    rw [verifyMoves] at h
    refine ⟨(Option.some_injective _ h).symm, ?_⟩
    intro i hi
    exact absurd hi (Nat.not_lt_zero i)
  | cons m rest ih =>
    intro pegs finalPegs h
    obtain ⟨f, o, t⟩ := m
    rw [verifyMoves] at h
    by_cases h1 : f < 49 ∧ o < 49 ∧ t < 49
    · rw [if_pos h1] at h
      by_cases h2 : valid_mask.testBit f ∧ valid_mask.testBit o ∧ valid_mask.testBit t
      · rw [if_pos h2] at h
        by_cases h3 : pegs.testBit f ∧ pegs.testBit o ∧ ¬ pegs.testBit t
        · rw [if_pos h3] at h
          obtain ⟨hfin, hidx⟩ :=
            ih (pegs ^^^ (1 <<< f) ^^^ (1 <<< o) ^^^ (1 <<< t)) finalPegs h
          constructor
          · rw [replayMoves_cons]
            exact hfin
          · intro i hi
            cases i with
            | zero =>
              simp only [List.get, List.take, replayMoves_nil]
              exact ⟨h1.1, h1.2.1, h1.2.2, h2.1, h2.2.1, h2.2.2, h3.1, h3.2.1,
                by simpa using h3.2.2⟩
            | succ j =>
              have hj : j < rest.length := by
                simpa [List.length_cons, Nat.succ_lt_succ_iff] using hi
              have := hidx j hj
              simpa [List.get, List.take, replayMoves_cons] using this
        · rw [if_neg h3] at h
          exact absurd h (by simp)
      · rw [if_neg h2] at h
        exact absurd h (by simp)
    · rw [if_neg h1] at h
      exact absurd h (by simp)

/-- Counterexample to claim C1 as stated: the verifier accepts the move
(0, 5, 10) on a full-7x7 board with pegs at cells 0 and 5 although the
jumped cell 5 is not adjacent to 0 and the three cells are not an
equi-spaced line; and with an empty move list it accepts a lone peg away
from the requested centre, skipping the target-cell check. -/
theorem verify_geometry_counterexample :
    verifyBitboardSolution ((1 <<< 0) ||| (1 <<< 5)) ((1 <<< 49) - 1) [(0, 5, 10)] false
      = true ∧
    specGeometricMove (0, 5, 10) = false ∧
    verifyBitboardSolution (1 <<< 2) VALID_MASK [] true = true ∧
    (1 <<< 2 : Nat) ≠ 1 <<< 24 := by decide

/-- Claim C1 (amended): if the verifier accepts, then every move passes
the range, cell-existence and occupancy checks in the state reached so
far (from and over occupied, to empty — but no geometric adjacency or
collinearity is checked), and the final state has exactly one peg, which
sits at the centre whenever a target was requested and the move list is
nonempty. -/
theorem verify_true_occupancy_and_terminal (pegs valid_mask : Nat) (moves : List Move)
    (rc : Bool) (hv : verifyBitboardSolution pegs valid_mask moves rc = true) :
    (∀ i (hi : i < moves.length),
      (moves.get ⟨i, hi⟩).1 < 49 ∧ (moves.get ⟨i, hi⟩).2.1 < 49 ∧
      (moves.get ⟨i, hi⟩).2.2 < 49 ∧
      valid_mask.testBit (moves.get ⟨i, hi⟩).1 = true ∧
      valid_mask.testBit (moves.get ⟨i, hi⟩).2.1 = true ∧
      valid_mask.testBit (moves.get ⟨i, hi⟩).2.2 = true ∧
      (replayMoves pegs (moves.take i)).testBit (moves.get ⟨i, hi⟩).1 = true ∧
      (replayMoves pegs (moves.take i)).testBit (moves.get ⟨i, hi⟩).2.1 = true ∧
      (replayMoves pegs (moves.take i)).testBit (moves.get ⟨i, hi⟩).2.2 = false) ∧
    popcount (replayMoves pegs moves) = 1 ∧
    (rc = true → moves ≠ [] → replayMoves pegs moves = 1 <<< 24) := by
  cases moves with
  | nil =>
    rw [verifyBitboardSolution] at hv
    simp only [List.isEmpty_nil, if_true] at hv
    refine ⟨fun i hi => absurd hi (Nat.not_lt_zero i), ?_, ?_⟩
    · rw [replayMoves_nil]
      simpa using hv
    · intro _ hne
      exact absurd rfl hne
  | cons m rest =>
    rw [verifyBitboardSolution] at hv
    simp only [List.isEmpty_cons, Bool.false_eq_true, if_false] at hv
    cases hvm : verifyMoves valid_mask pegs (m :: rest) with
    | none =>
      rw [hvm] at hv
      dsimp only at hv
      exact absurd hv (by simp)
    | some fp =>
      rw [hvm] at hv
      dsimp only at hv
      obtain ⟨hfin, hidx⟩ := verifyMoves_sound valid_mask (m :: rest) pegs fp hvm
      by_cases h0 : fp = 0
      · rw [if_pos h0] at hv
        exact absurd hv (by simp)
      · rw [if_neg h0] at hv
        by_cases hp : popcount fp ≠ 1
        · rw [if_pos hp] at hv
          exact absurd hv (by simp)
        · rw [if_neg hp] at hv
          refine ⟨hidx, ?_, ?_⟩
          · rw [← hfin]
            exact not_not.mp hp
          · intro hrc _
            rw [hrc, if_pos (Eq.refl true)] at hv
            rw [← hfin]
            simpa using hv

/-- Witness for the amended C1: the verifier accepts the one-move
solution (16, 17, 18) on the two-peg English board, and the replay ends
with one peg. -/
theorem verify_true_occupancy_and_terminal_witness :
    verifyBitboardSolution ((1 <<< 16) ||| (1 <<< 17)) VALID_MASK [(16, 17, 18)] false
      = true ∧
    popcount (replayMoves ((1 <<< 16) ||| (1 <<< 17)) [(16, 17, 18)]) = 1 :=
  ⟨by decide,
   (verify_true_occupancy_and_terminal ((1 <<< 16) ||| (1 <<< 17)) VALID_MASK
      [(16, 17, 18)] false (by decide)).2.1⟩

/-- Claim C10: with an empty move list the verifier returns true exactly
when the starting board already has one peg, and the result does not
depend on whether the centre target was requested. -/
theorem verify_empty_moves (pegs valid_mask : Nat) (rc : Bool) :
    (verifyBitboardSolution pegs valid_mask [] rc = true ↔ popcount pegs = 1) ∧
    verifyBitboardSolution pegs valid_mask [] true =
      verifyBitboardSolution pegs valid_mask [] false := by
  constructor
  · rw [verifyBitboardSolution]
    simp only [List.isEmpty_nil, if_true]
    exact ⟨fun h => by simpa using h, fun h => by rw [h]; rfl⟩
  · rfl

/-! ## Pattern database admissibility (claim C3) -/

/-- Claim C3 is wrong about the code (a code defect): the reverse BFS of
`build_region_db` adds one peg per step with no jump geometry, so the
stored cost of every region state is simply its peg count and the summed
heuristic of any board equals its total peg count — one more than the
length of a shortest solution.  At the failing input (pegs at 16 and 17)
the built heuristic is 2, yet the verifier accepts the one-move solution
(16, 17, 18), so the heuristic strictly exceeds the solution length 1 and
is not an admissible lower bound, contradicting the code's own docstring
("this is an admissible heuristic", "returns a lower bound"). -/
theorem pdb_heuristic_overestimates :
    patternHeuristicBuilt ((1 <<< 16) ||| (1 <<< 17)) = 2 ∧
    verifyBitboardSolution ((1 <<< 16) ||| (1 <<< 17)) VALID_MASK [(16, 17, 18)] false
      = true ∧
    ¬ patternHeuristicBuilt ((1 <<< 16) ||| (1 <<< 17)) ≤ 1 := by
  set_option maxRecDepth 1000000 in decide

/-! ## Meta-solver verification gate (claim C2) -/

/-- Counterexample to claim C2: the Governor returns a truthy Lookup
result as is, so when the store hands back the move list [(0, 1, 2)] for
the English start board the Governor returns it although the verifier
rejects it — a produced-but-invalid solution reaches the user. -/
theorem governor_returns_unverified :
    governorSolve (some [(0, 1, 2)]) [] = some [(0, 1, 2)] ∧
    verifyBitboardSolution ENGLISH_START VALID_MASK [(0, 1, 2)] false = false := by
  decide

/-- Claim C2 (amended): the Sequential meta-solver returns a non-Lookup
engine output only after its own replay check (xor-replay the moves and
require exactly one final peg — not the component-E verifier); a truthy
Lookup output, and every result on the Governor's paths, is returned with
no verification at all. -/
theorem sequential_accepts_only_validated (pegs : Nat)
    (strategies : List (String × Option (List Move))) (s : List Move)
    (h : sequentialSelect pegs strategies = some s) :
    (∃ e ∈ strategies, e.1 = "Lookup" ∧ e.2 = some s) ∨
      validateSolution pegs s = true := by
  induction strategies with
  | nil =>
    simp only [sequentialSelect] at h
    exact absurd h (by simp)
  | cons e rest ih =>
    obtain ⟨name, result⟩ := e
    cases result with
    | none =>
      simp only [sequentialSelect] at h
      rcases ih h with ⟨e2, he2, hl⟩ | hv
      · exact Or.inl ⟨e2, List.mem_cons_of_mem _ he2, hl⟩
      · exact Or.inr hv
    | some sol =>
      simp only [sequentialSelect] at h
      by_cases hname : (name == "Lookup") = true
      · rw [if_pos hname] at h
        by_cases hemp : sol.isEmpty
        · rw [if_pos hemp] at h
          rcases ih h with ⟨e2, he2, hl⟩ | hv
          · exact Or.inl ⟨e2, List.mem_cons_of_mem _ he2, hl⟩
          · exact Or.inr hv
        · rw [if_neg hemp] at h
          have hs : sol = s := Option.some_injective _ h
          exact Or.inl ⟨(name, some sol), List.mem_cons_self _ _,
            eq_of_beq hname, by rw [hs]⟩
      · rw [if_neg hname] at h
        by_cases hval : validateSolution pegs sol = true
        · rw [if_pos hval] at h
          have hs : sol = s := Option.some_injective _ h
          exact Or.inr (hs ▸ hval)
        · rw [if_neg hval] at h
          rcases ih h with ⟨e2, he2, hl⟩ | hv
          · exact Or.inl ⟨e2, List.mem_cons_of_mem _ he2, hl⟩
          · exact Or.inr hv

/-- Witness for the amended C2: a DFS output accepted by Sequential on
the two-peg board passes the replay check. -/
theorem sequential_accepts_only_validated_witness :
    sequentialSelect ((1 <<< 16) ||| (1 <<< 17)) [("DFS", some [(16, 17, 18)])]
      = some [(16, 17, 18)] ∧
    ((∃ e ∈ [("DFS", some [(16, 17, 18)])], e.1 = "Lookup" ∧ e.2 = some [(16, 17, 18)]) ∨
      validateSolution ((1 <<< 16) ||| (1 <<< 17)) [(16, 17, 18)] = true) :=
  ⟨by decide,
   sequential_accepts_only_validated ((1 <<< 16) ||| (1 <<< 17))
     [("DFS", some [(16, 17, 18)])] [(16, 17, 18)] (by decide)⟩

/-! ## Solution store round trip (claim C8) -/

theorem storeGet_storeSet (db : List (String × SolutionMetadata)) (key : String)
    (v : SolutionMetadata) : storeGet (storeSet db key v) key = some v := by
  rw [storeSet]
  by_cases hany : db.any (fun e => e.1 == key) = true
  · rw [if_pos hany]
    induction db with
    | nil => simp at hany
    | cons e rest ih =>
      rw [List.any_cons] at hany
      by_cases he : (e.1 == key) = true
      · rw [List.map_cons, if_pos he, storeGet, List.find?_cons_of_pos _ (by simp)]
        rfl
      · rw [List.map_cons, if_neg he, storeGet]
        have hstep : List.find? (fun pr => pr.1 == key)
            (e :: List.map (fun pr => if (pr.1 == key) = true then (key, v) else pr) rest)
          = List.find? (fun pr => pr.1 == key)
            (List.map (fun pr => if (pr.1 == key) = true then (key, v) else pr) rest) :=
          List.find?_cons_of_neg _ he
        rw [hstep]
        have hrest : rest.any (fun e => e.1 == key) = true := by
          rcases Bool.or_eq_true_iff.mp hany with h1 | h2
          · exact absurd h1 he
          · exact h2
        have := ih hrest
        rw [storeGet] at this
        exact this
  · rw [if_neg hany]
    rw [storeGet, List.find?_append]
    have hnone : db.find? (fun e => e.1 == key) = none := by
      rw [List.find?_eq_none]
      intro x hx hpx
      exact hany (List.any_eq_true.mpr ⟨x, hx, hpx⟩)
    rw [hnone, Option.none_or, List.find?_cons_of_pos _ (by simp)]
    rfl

theorem storeGet_wf {db : List (String × SolutionMetadata)} {key : String}
    {e : SolutionMetadata}
    (hwf : ∀ pr ∈ db, pr.2.move_count = pr.2.moves.length)
    (hget : storeGet db key = some e) : e.move_count = e.moves.length := by
  rw [storeGet] at hget
  cases hf : db.find? (fun pr => pr.1 == key) with
  | none => rw [hf] at hget; exact absurd hget (by simp)
  | some pr =>
    rw [hf] at hget
    have hmem := List.mem_of_find?_eq_some hf
    have : pr.2 = e := by simpa using hget
    rw [← this]
    exact hwf pr hmem

theorem mkSolutionMetadata_moves (moves : List String) (solver : String) :
    (mkSolutionMetadata moves solver moves.length).moves = moves := rfl

theorem mkSolutionMetadata_count (moves : List String) (solver : String) :
    (mkSolutionMetadata moves solver moves.length).move_count = moves.length := by
  rw [mkSolutionMetadata]
  by_cases h : moves.length = 0
  · simp [h]
  · simp [h]

/-- Claim C8: after saving a solution for a board, looking the board up
returns an entry no longer than the saved one; and a save onto a key
that already holds an entry replaces it exactly when the new solution is
strictly shorter, leaving the whole store untouched otherwise.  The store
is modelled in memory; entries are assumed well-formed (`move_count`
equals the length of the stored move list, as every save establishes). -/
theorem store_roundtrip_and_replacement (db : List (String × SolutionMetadata))
    (board : List (List String)) (moves : List String) (solver : String)
    (hwf : ∀ pr ∈ db, pr.2.move_count = pr.2.moves.length) :
    (∃ meta, getCachedSolutionEnhanced (saveSolutionEnhanced db board moves solver) board
        = some meta ∧ meta.moves.length ≤ moves.length) ∧
    (∀ existing, storeGet db (boardToStr board) = some existing →
      ((moves.length < existing.move_count →
        saveSolutionEnhanced db board moves solver =
          storeSet db (boardToStr board) (mkSolutionMetadata moves solver moves.length)) ∧
       (¬ moves.length < existing.move_count →
        saveSolutionEnhanced db board moves solver = db))) := by
  constructor
  · rw [getCachedSolutionEnhanced, saveSolutionEnhanced]
    cases hget : storeGet db (boardToStr board) with
    | none =>
      dsimp only
      refine ⟨mkSolutionMetadata moves solver moves.length, ?_, ?_⟩
      · exact storeGet_storeSet db (boardToStr board) _
      · rw [mkSolutionMetadata_moves]
    | some existing =>
      dsimp only
      by_cases hlt : moves.length < existing.move_count
      · rw [if_pos hlt]
        refine ⟨mkSolutionMetadata moves solver moves.length, ?_, ?_⟩
        · exact storeGet_storeSet db (boardToStr board) _
        · rw [mkSolutionMetadata_moves]
      · rw [if_neg hlt]
        refine ⟨existing, hget, ?_⟩
        rw [← storeGet_wf hwf hget]
        exact Nat.le_of_not_lt hlt
  · intro existing hget
    constructor
    · intro hlt
      rw [saveSolutionEnhanced, hget]
      dsimp only
      rw [if_pos hlt]
    · intro hlt
      rw [saveSolutionEnhanced, hget]
      dsimp only
      rw [if_neg hlt]

/-- Witness for C8 on the empty store. -/
theorem store_roundtrip_and_replacement_witness :
    ∃ meta, getCachedSolutionEnhanced
        (saveSolutionEnhanced [] [["a"]] ["m1", "m2"] "DFS") [["a"]] = some meta ∧
      meta.moves.length ≤ (["m1", "m2"] : List String).length :=
  (store_roundtrip_and_replacement [] [["a"]] ["m1", "m2"] "DFS"
    (fun pr hpr => absurd hpr (List.not_mem_nil pr))).1

/-! ## Branch dispatch between English and arbitrary boards (claim C9) -/

/-- Claim C9: in `get_moves`, `is_dead` (beyond its one-peg early exit)
and `canonical`, the choice between the English-cross behaviour and the
arbitrary-7x7 behaviour depends only on whether some peg lies outside the
33-cell cross mask; when all pegs are inside, the board is treated as the
English cross (eight-way canonicalisation included), and in the arbitrary
branch every generated move reads holes from the complement of the pegs
in the full 49-bit mask — no caller-supplied valid mask exists. -/
theorem branch_dispatch_by_outside_pegs (pegs : Nat) :
    (andNot pegs VALID_MASK ≠ 0 →
      getMoves pegs = getMovesArbitrary pegs ∧
      (1 < popcount pegs → isDead pegs = isDeadArbitraryScan pegs) ∧
      canonicalPegs pegs = pegs) ∧
    (andNot pegs VALID_MASK = 0 →
      getMoves pegs = getMovesEnglish pegs ∧
      (1 < popcount pegs → isDead pegs = isDeadEnglishMasks pegs) ∧
      canonicalPegs pegs = canonicalEnglish pegs) ∧
    (∀ m : Move, m ∈ getMovesArbitrary pegs ↔ arbitraryMoveSpec pegs m) := by
  refine ⟨?_, ?_, ?_⟩
  · intro hb
    refine ⟨by rw [getMoves, if_pos hb], ?_, by rw [canonicalPegs, if_pos hb]⟩
    intro hc
    rw [isDead, if_neg (Nat.not_le_of_lt hc), if_pos hb]
  · intro hb
    have hnb : ¬ andNot pegs VALID_MASK ≠ 0 := fun h => h hb
    refine ⟨by rw [getMoves, if_neg hnb], ?_, by rw [canonicalPegs, if_neg hnb]⟩
    intro hc
    rw [isDead, if_neg (Nat.not_le_of_lt hc), if_neg hnb]
  · intro m
    unfold arbitraryMoveSpec
    exact mem_getMovesArbitrary_iff

/-- Witness for C9: a single peg at cell 0 (outside the cross) is
dispatched to the arbitrary branch. -/
theorem branch_dispatch_by_outside_pegs_witness :
    andNot (1 <<< 0) VALID_MASK ≠ 0 ∧ getMoves (1 <<< 0) = getMovesArbitrary (1 <<< 0) :=
  ⟨by decide, ((branch_dispatch_by_outside_pegs (1 <<< 0)).1 (by decide)).1⟩

end PegSolver
